import Mathlib

/-!
# Mooncake master service: metadata engine

A shallow embedding of `mooncake-store/include/master_service.h`:
`GCTask`, `MasterService::GCTaskComparator`, `MasterService::ObjectMetadata`,
`MasterService::getShardIndex` and `MasterService::MetadataAccessor`.

Conventions of the embedding.

* `std::chrono::steady_clock::time_point` is a signed 64-bit count of
  nanoseconds since the clock's epoch; it is an `Int` here, and every
  arithmetic step on it is reduced with `wrapInt64`, the two's-complement
  result.  Signed overflow itself is undefined in C++: the theorems that speak
  of an exact sum assume that the sum is representable (`inInt64`).  Reading
  the clock (`steady_clock::now()`) is an explicit argument `now`.
* `std::chrono::milliseconds` is a signed 64-bit count of milliseconds, an
  `Int` as well.
* `std::unordered_map<std::string, ObjectMetadata>` is an association list;
  an iterator is `Option String`: `none` is `end()`, `some k` points at the
  entry whose key is `k`.
* `std::hash<std::string>` and `MasterService::CleanupStaleHandles` (declared
  in the header, defined elsewhere) are arguments of the functions that call
  them.
-/

namespace mooncake

/-! ## Clock arithmetic -/

/-- Two's-complement reduction of an integer to the signed 64-bit range. -/
def wrapInt64 (x : Int) : Int := (x + 2 ^ 63) % 2 ^ 64 - 2 ^ 63

/-- The range of a signed 64-bit integer. -/
def inInt64 (x : Int) : Prop := -(2 ^ 63) ≤ x ∧ x < 2 ^ 63

instance inInt64.decidable (x : Int) : Decidable (inInt64 x) := by
  unfold inInt64; exact inferInstance

/-- The conversion `std::chrono::milliseconds(ttl)` of a `uint64_t` count:
the duration's representation is a signed 64-bit integer, so the count is
converted modulo `2 ^ 64`. -/
def millisecondsOfUInt64 (ttl : Nat) : Int := wrapInt64 ((ttl % 2 ^ 64 : Nat) : Int)

/-- The sum `time_point + std::chrono::milliseconds`: the duration is converted
to nanoseconds (times `1000000`) and added to the nanosecond count of the time
point, both in signed 64-bit arithmetic. -/
def timePointAddMilliseconds (tp : Int) (d : Int) : Int :=
  wrapInt64 (tp + wrapInt64 (d * 1000000))

/-! ## GCTask -/

/-- The structure `GCTask`: a key and the time point at which it is due. -/
structure GCTask where
  key : String
  deletion_time : Int
  deriving DecidableEq, Repr

/-- The constructor `GCTask(k, delay)`, run when the clock reads `now`. -/
def GCTask.new (k : String) (delay : Int) (now : Int) : GCTask :=
  { key := k, deletion_time := timePointAddMilliseconds now delay }

/-- The method `GCTask::is_ready`, run when the clock reads `now`. -/
def GCTask.is_ready (self : GCTask) (now : Int) : Bool :=
  decide (now ≥ self.deletion_time)

/-- The call operator of `MasterService::GCTaskComparator`. -/
def GCTaskComparator (a b : GCTask) : Bool :=
  decide (a.deletion_time > b.deletion_time)

/-! ## Replicas and object metadata -/

/-- Modelled from the spec: the enumeration `ReplicaStatus` is declared in
`types.h`, which is not among the sources; the spec gives the statuses of a
replica as PROCESSING, COMPLETE and FAILED. -/
inductive ReplicaStatus where
  | PROCESSING
  | COMPLETE
  | FAILED
  deriving DecidableEq, Repr

/-- Modelled from the spec: a handle (declared in `types.h`, not among the
sources) carries the name of its owning segment, an offset and a length. -/
structure BufHandle where
  segment_name : String
  offset : Nat
  length : Nat
  deriving DecidableEq, Repr

/-- Modelled from the spec: a replica (class `Replica` of `types.h`, not among
the sources) is an ordered sequence of handles together with a status, read
with `status()`. -/
structure Replica where
  handles : List BufHandle
  status_ : ReplicaStatus
  deriving DecidableEq, Repr

/-- The accessor `Replica::status()`. -/
def Replica.status (self : Replica) : ReplicaStatus := self.status_

/-- The structure `MasterService::ObjectMetadata`. -/
structure ObjectMetadata where
  replicas : List Replica
  size : Nat
  lease_timeout : Int
  deriving DecidableEq, Repr

/-- The value-initialised `ObjectMetadata()`: no replicas, size zero and a
lease deadline at the clock's epoch. -/
def ObjectMetadata.default : ObjectMetadata :=
  { replicas := [], size := 0, lease_timeout := 0 }

/-- The loop of `HasDiffRepStatus` over the replicas, in order. -/
def HasDiffRepStatus.loop (status : ReplicaStatus) : List Replica → Option ReplicaStatus
  | [] => none
  | replica :: rest =>
    if replica.status ≠ status then some replica.status
    else HasDiffRepStatus.loop status rest

/-- The method `ObjectMetadata::HasDiffRepStatus`. -/
def ObjectMetadata.HasDiffRepStatus (self : ObjectMetadata) (status : ReplicaStatus) :
    Option ReplicaStatus :=
  HasDiffRepStatus.loop status self.replicas

/-- The method `ObjectMetadata::GrantLease(ttl)`, run when the clock reads
`now`; `ttl` is a `uint64_t` count of milliseconds. -/
def ObjectMetadata.GrantLease (self : ObjectMetadata) (ttl : Nat) (now : Int) : ObjectMetadata :=
  { self with
    lease_timeout :=
      max self.lease_timeout (timePointAddMilliseconds now (millisecondsOfUInt64 ttl)) }

/-- The method `ObjectMetadata::IsLeaseExpired`, both overloads: the one
without argument reads the clock, the other is handed `now`. -/
def ObjectMetadata.IsLeaseExpired (self : ObjectMetadata) (now : Int) : Bool :=
  decide (now ≥ self.lease_timeout)

/-! ## Metadata shards -/

/-- The number of metadata shards, `MasterService::kNumShards`. -/
def kNumShards : Nat := 1024

/-- The map `std::unordered_map<std::string, ObjectMetadata>` of a shard. -/
abbrev MetadataMap := List (String × ObjectMetadata)

namespace MetadataMap

/-- The keys of the map, in the order of the entries. -/
def keys (m : MetadataMap) : List String := m.map Prod.fst

/-- Well-formedness of a map: no key occurs twice. -/
def WF (m : MetadataMap) : Prop := m.keys.Nodup

/-- The value stored under `key`, when there is one: `it->second` for
`it = find(key)`. -/
def lookup : MetadataMap → String → Option ObjectMetadata
  | [], _ => none
  | (k, v) :: rest, key => if k = key then some v else lookup rest key

/-- The search `find(key)`: an iterator at the entry of `key`, or `end()`. -/
def find (m : MetadataMap) (key : String) : Option String :=
  match m.lookup key with
  | some _ => some key
  | none => none

/-- The removal `erase(it)` of the entry the iterator points at. -/
def erase : MetadataMap → String → MetadataMap
  | [], _ => []
  | (k, v) :: rest, key => if k = key then rest else (k, v) :: erase rest key

/-- A write through the reference `it->second`: the value of the entry the
iterator points at is replaced. -/
def assign : MetadataMap → String → ObjectMetadata → MetadataMap
  | [], _, _ => []
  | (k, v) :: rest, key, w =>
    if k = key then (k, w) :: rest else (k, v) :: assign rest key w

/-- The insertion `emplace(key, value)`: nothing is inserted when the key is
already present.  The result is the map, the iterator at the entry of `key`,
and whether an insertion took place. -/
def emplace (m : MetadataMap) (key : String) (value : ObjectMetadata) :
    MetadataMap × Option String × Bool :=
  match m.lookup key with
  | some _ => (m, some key, false)
  | none => ((key, value) :: m, some key, true)

end MetadataMap

/-- The structure `MasterService::MetadataShard`; the mutex is not part of
the sequential model. -/
structure MetadataShard where
  metadata : MetadataMap
  deriving DecidableEq, Repr

/-- The metadata state of a `MasterService`: the array
`std::array<MetadataShard, kNumShards> metadata_shards_`. -/
structure MasterService where
  metadata_shards_ : List MetadataShard
  shards_size : metadata_shards_.length = kNumShards

namespace MasterService

/-- A freshly constructed service: `kNumShards` empty shards. -/
def init : MasterService :=
  { metadata_shards_ := List.replicate kNumShards { metadata := [] }
    shards_size := List.length_replicate _ _ }

/-- The method `MasterService::getShardIndex`, over the hash function
`std::hash<std::string>`. -/
def getShardIndex (_self : MasterService) (stdHash : String → Nat) (key : String) : Nat :=
  stdHash key % kNumShards

/-- The read `metadata_shards_[i]`. -/
def shard (self : MasterService) (i : Nat) : MetadataShard :=
  self.metadata_shards_.getD i { metadata := [] }

/-- The write `metadata_shards_[i].metadata = m`. -/
def setShardMetadata (self : MasterService) (i : Nat) (m : MetadataMap) : MasterService :=
  { metadata_shards_ := self.metadata_shards_.set i { metadata := m }
    shards_size := by rw [List.length_set]; exact self.shards_size }

end MasterService

/-! ## MetadataAccessor -/

/-- The class `MasterService::MetadataAccessor`.  The pointer `service_` is
the state of the service as the accessor has left it; the lock is not part of
the sequential model. -/
structure MetadataAccessor where
  service_ : MasterService
  key_ : String
  shard_idx_ : Nat
  it_ : Option String

namespace MetadataAccessor

/-- The constructor `MetadataAccessor(service, key)`.  The argument
`CleanupStaleHandles` stands for the member function of that name, which takes
the metadata by reference: it returns its verdict and the metadata as it
leaves them.  The match is on `it_->second` for `it_ = find(key)`: there is no
such value exactly when `it_` is `end()`. -/
def new (stdHash : String → Nat)
    (CleanupStaleHandles : ObjectMetadata → Bool × ObjectMetadata)
    (service : MasterService) (key : String) : MetadataAccessor :=
  let shard_idx := service.getShardIndex stdHash key
  let m := (service.shard shard_idx).metadata
  match m.lookup key with
  | none => { service_ := service, key_ := key, shard_idx_ := shard_idx, it_ := m.find key }
  | some md =>
    let r := CleanupStaleHandles md
    let m1 := m.assign key r.2
    if r.1 then
      { service_ := service.setShardMetadata shard_idx (m1.erase key)
        key_ := key, shard_idx_ := shard_idx, it_ := none }
    else
      { service_ := service.setShardMetadata shard_idx m1
        key_ := key, shard_idx_ := shard_idx, it_ := m.find key }

/-- The method `Exists`: the iterator is not `end()`. -/
def Exists (self : MetadataAccessor) : Bool := self.it_.isSome

/-- The method `Get`, `it_->second`; it has no value at `end()`. -/
def Get (self : MetadataAccessor) : Option ObjectMetadata :=
  match self.it_ with
  | none => none
  | some k => (self.service_.shard self.shard_idx_).metadata.lookup k

/-- The method `Erase`; erasing through `end()` is undefined and has no
result. -/
def Erase (self : MetadataAccessor) : Option MetadataAccessor :=
  match self.it_ with
  | none => none
  | some k =>
    some { self with
      service_ := self.service_.setShardMetadata self.shard_idx_
        ((self.service_.shard self.shard_idx_).metadata.erase k)
      it_ := none }

/-- The method `Create`: `emplace(key_, ObjectMetadata())`, the iterator is
moved to the entry of `key_`. -/
def Create (self : MetadataAccessor) : MetadataAccessor :=
  let result :=
    (self.service_.shard self.shard_idx_).metadata.emplace self.key_ ObjectMetadata.default
  { self with
    service_ := self.service_.setShardMetadata self.shard_idx_ result.1
    it_ := result.2.1 }

end MetadataAccessor

/-! ## Sequences of accessor operations -/

/-- A call made on a live accessor. -/
inductive AccessorCall where
  | Create
  | Erase
  deriving DecidableEq, Repr

/-- One call on an accessor; it has no result when the call is undefined. -/
def MetadataAccessor.call (self : MetadataAccessor) : AccessorCall → Option MetadataAccessor
  | .Create => some self.Create
  | .Erase => self.Erase

/-- A sequence of calls on an accessor, in order. -/
def MetadataAccessor.calls (self : MetadataAccessor) : List AccessorCall → Option MetadataAccessor
  | [] => some self
  | c :: cs =>
    match self.call c with
    | none => none
    | some next => next.calls cs

/-- The life of one accessor: it is constructed for `key`, with
`CleanupStaleHandles` behaving as `cleanup` at that moment, receives `todo`
and goes out of scope. -/
structure AccessorScope where
  key : String
  cleanup : ObjectMetadata → Bool × ObjectMetadata
  todo : List AccessorCall

/-- The service after one accessor scope. -/
def runScope (stdHash : String → Nat) (service : MasterService) (sc : AccessorScope) :
    Option MasterService :=
  match (MetadataAccessor.new stdHash sc.cleanup service sc.key).calls sc.todo with
  | none => none
  | some acc => some acc.service_

/-- The service after a sequence of accessor scopes, one after the other. -/
def runScopes (stdHash : String → Nat) (service : MasterService) :
    List AccessorScope → Option MasterService
  | [] => some service
  | sc :: rest =>
    match runScope stdHash service sc with
    | none => none
    | some next => runScopes stdHash next rest

/-- The placement invariant: every key stored in shard `i` has shard index
`i`. -/
def ShardPlacement (stdHash : String → Nat) (service : MasterService) : Prop :=
  ∀ i : Nat, ∀ e ∈ (service.shard i).metadata, service.getShardIndex stdHash e.1 = i

/-- Well-formedness of the shards: no shard holds a key twice. -/
def ShardsWF (service : MasterService) : Prop :=
  ∀ i : Nat, (service.shard i).metadata.WF

/-! ## Sample data -/

/-- A committed object of 1024 bytes with one replica, held in one slice on
segment `n1`. -/
def sampleObject : ObjectMetadata :=
  { replicas := [{ handles := [{ segment_name := "n1", offset := 0, length := 1024 }],
                   status_ := ReplicaStatus.COMPLETE }]
    size := 1024, lease_timeout := 0 }

/-- A hash function for the samples: the length of the key. -/
def sampleHash (key : String) : Nat := key.length

/-- A service that holds `sampleObject` under the key `y`, in shard 1. -/
def sampleService : MasterService :=
  MasterService.init.setShardMetadata 1 [("y", sampleObject)]

/-- A `CleanupStaleHandles` that finds every segment mounted. -/
def cleanupNoneStale (md : ObjectMetadata) : Bool × ObjectMetadata := (false, md)

/-- A `CleanupStaleHandles` that finds every segment unmounted: it drops the
replicas and reports the entry as gone. -/
def cleanupAllStale (md : ObjectMetadata) : Bool × ObjectMetadata :=
  (true, { md with replicas := [] })

/-- Five accessor scopes: two creations, a stale-handle erase, a creation
that is erased and repeated, and a creation on a key that is present. -/
def sampleScopes : List AccessorScope :=
  [ { key := "a", cleanup := cleanupNoneStale, todo := [AccessorCall.Create] },
    { key := "bb", cleanup := cleanupNoneStale, todo := [AccessorCall.Create] },
    { key := "a", cleanup := cleanupAllStale, todo := [] },
    { key := "ccc", cleanup := cleanupNoneStale,
      todo := [AccessorCall.Create, AccessorCall.Erase, AccessorCall.Create] },
    { key := "bb", cleanup := cleanupNoneStale, todo := [AccessorCall.Create] } ]

/-- The service the sample scopes lead to: `bb` in shard 2 and `ccc` in
shard 3, each with a default object. -/
def sampleFinal : MasterService :=
  (MasterService.init.setShardMetadata 2 [("bb", ObjectMetadata.default)]).setShardMetadata 3
    [("ccc", ObjectMetadata.default)]

/-- Validity of an accessor: it indexes the shard of its key, and its iterator
is `end()` or points at the entry of its key, which is in that shard. -/
def MetadataAccessor.IteratorValid (stdHash : String → Nat) (self : MetadataAccessor) : Prop :=
  self.shard_idx_ = self.service_.getShardIndex stdHash self.key_ ∧
  ∀ k, self.it_ = some k →
    k = self.key_ ∧ ∃ md, (self.service_.shard self.shard_idx_).metadata.lookup k = some md

/-- The entries of a map under the keys other than `key`, in order. -/
def MetadataMap.others (m : MetadataMap) (key : String) : MetadataMap :=
  m.filter (fun e => decide (e.1 ≠ key))

/-- The frame of an accessor of `key` on shard `idx`: from `self` to `after`
every other shard is the same, and in shard `idx` the entries under the other
keys are the same, in the same order, and are found by the same searches. -/
def MasterService.SameExcept (self after : MasterService) (idx : Nat) (key : String) : Prop :=
  (∀ j, j ≠ idx → after.shard j = self.shard j) ∧
  (after.shard idx).metadata.others key = (self.shard idx).metadata.others key ∧
  ∀ other, other ≠ key →
    (after.shard idx).metadata.lookup other = (self.shard idx).metadata.lookup other

/-- A service that holds `sampleObject` under `y` and a default object under
`x`, both in shard 1. -/
def sampleServiceTwo : MasterService :=
  MasterService.init.setShardMetadata 1 [("y", sampleObject), ("x", ObjectMetadata.default)]

/-! ## HasDiffRepStatus -/

theorem HasDiffRepStatus.loop_eq_none (status : ReplicaStatus) (l : List Replica) :
    HasDiffRepStatus.loop status l = none ↔ ∀ r ∈ l, r.status = status := by
  induction l with
  | nil => simp [HasDiffRepStatus.loop]
  | cons r rest ih =>
    by_cases h : r.status = status
    · simp [HasDiffRepStatus.loop, h, ih]
    · simp [HasDiffRepStatus.loop, h]

theorem HasDiffRepStatus.loop_eq_some (status st : ReplicaStatus) (l : List Replica) :
    HasDiffRepStatus.loop status l = some st ↔
      ∃ i, ∃ h : i < l.length, l[i].status = st ∧ st ≠ status ∧
        ∀ j, ∀ hj : j < l.length, j < i → l[j].status = status := by
  induction l with
  | nil => simp [HasDiffRepStatus.loop]
  | cons r rest ih =>
    by_cases h : r.status = status
    · simp only [HasDiffRepStatus.loop, h, ne_eq, not_true_eq_false, if_false, ih]
      constructor
      · rintro ⟨i, hi, h1, h2, h3⟩
        refine ⟨i + 1, by simpa using hi, by simpa using h1, h2, ?_⟩
        intro j hj hji
        cases j with
        | zero => simpa using h
        | succ j =>
          have hj2 : j < rest.length := by simpa using hj
          simpa using h3 j hj2 (by omega)
      · rintro ⟨i, hi, h1, h2, h3⟩
        cases i with
        | zero =>
          exfalso
          apply h2
          rw [← h1]
          simpa using h
        | succ i =>
          have hi2 : i < rest.length := by simpa using hi
          refine ⟨i, hi2, by simpa using h1, h2, ?_⟩
          intro j hj hji
          have := h3 (j + 1) (by simpa using hj) (by omega)
          simpa using this
    · simp only [HasDiffRepStatus.loop, ne_eq, h, not_false_eq_true, if_true, Option.some.injEq]
      constructor
      · intro e
        refine ⟨0, by simp, by simpa using e, ?_, ?_⟩
        · rw [← e]; exact h
        · intro j hj hj0; omega
      · rintro ⟨i, hi, h1, h2, h3⟩
        cases i with
        | zero => simpa using h1
        | succ i =>
          exfalso
          apply h
          simpa using h3 0 (by simp) (by omega)

/-- C1: `HasDiffRepStatus(s)` returns none exactly when every replica has
status `s` (the empty sequence included); it returns `st` exactly when `st` is
the status of the lowest-index replica whose status differs from `s`, so a
returned status is never `s`, and it does return one whenever some replica
differs. -/
theorem HasDiffRepStatus_first_mismatch (md : ObjectMetadata) (s : ReplicaStatus) :
    (md.HasDiffRepStatus s = none ↔ ∀ r ∈ md.replicas, r.status = s) ∧
    (∀ st, md.HasDiffRepStatus s = some st ↔
      ∃ i, ∃ h : i < md.replicas.length, md.replicas[i].status = st ∧ st ≠ s ∧
        ∀ j, ∀ hj : j < md.replicas.length, j < i → md.replicas[j].status = s) ∧
    ((∃ r ∈ md.replicas, r.status ≠ s) ↔ ∃ st, md.HasDiffRepStatus s = some st ∧ st ≠ s) := by
  refine ⟨HasDiffRepStatus.loop_eq_none s md.replicas,
    fun st => HasDiffRepStatus.loop_eq_some s st md.replicas, ?_⟩
  constructor
  · rintro ⟨r, hr, hne⟩
    cases hres : md.HasDiffRepStatus s with
    | none =>
      exact absurd ((HasDiffRepStatus.loop_eq_none s md.replicas).1 hres r hr) hne
    | some st =>
      obtain ⟨_, _, _, h2, _⟩ := (HasDiffRepStatus.loop_eq_some s st md.replicas).1 hres
      exact ⟨st, rfl, h2⟩
  · rintro ⟨st, hst, _⟩
    by_contra hall
    have hall2 : ∀ r ∈ md.replicas, r.status = s := by
      intro r hr
      by_contra hne
      exact hall ⟨r, hr, hne⟩
    have := (HasDiffRepStatus.loop_eq_none s md.replicas).2 hall2
    rw [ObjectMetadata.HasDiffRepStatus] at hst
    rw [this] at hst
    exact Option.noConfusion hst

/-! ## Clock arithmetic: lemmas -/

theorem wrapInt64_of_inInt64 (x : Int) (h : inInt64 x) : wrapInt64 x = x := by
  unfold inInt64 at h
  unfold wrapInt64
  omega

theorem timePointAddMilliseconds_exact (tp d : Int) (h : inInt64 (tp + d * 1000000)) :
    timePointAddMilliseconds tp d = tp + d * 1000000 := by
  unfold inInt64 at h
  unfold timePointAddMilliseconds wrapInt64
  omega

theorem timePointAddMilliseconds_inInt64 (tp d : Int) :
    inInt64 (timePointAddMilliseconds tp d) := by
  unfold inInt64 timePointAddMilliseconds wrapInt64
  omega

theorem timePointAddMilliseconds_ttl_exact (now : Int) (ttl : Nat)
    (h : inInt64 (now + ttl * 1000000)) :
    timePointAddMilliseconds now (millisecondsOfUInt64 ttl) = now + ttl * 1000000 := by
  unfold inInt64 at h
  unfold timePointAddMilliseconds millisecondsOfUInt64 wrapInt64
  omega

/-! ## Leases -/

/-- C2, as the code has it: granting `ttl = 2 ^ 64 - 1` milliseconds five
seconds after the epoch to a fresh object leaves a deadline one millisecond
in the past, so the immediate check at the grant time finds the lease expired
although `ttl > 0` and the grant time lies before grant time plus `ttl`. -/
theorem GrantLease_huge_ttl_expired_at_once :
    0 < 2 ^ 64 - 1 ∧ 2 ^ 64 - 1 < 2 ^ 64 ∧
    (5000000000 : Int) < 5000000000 + ((2 ^ 64 - 1 : Nat) : Int) * 1000000 ∧
    (ObjectMetadata.default.GrantLease (2 ^ 64 - 1) 5000000000).lease_timeout = 4999000000 ∧
    (ObjectMetadata.default.GrantLease (2 ^ 64 - 1) 5000000000).IsLeaseExpired 5000000000
      = true := by
  decide

/-- C2, amended: after `GrantLease(ttl)` at time `t` the lease is unexpired at
every time before the steady-clock sum `t + milliseconds(ttl)` the code
computes and, when the deadline before the call was at most that sum, expired
at every time from it on.  Whenever `t + ttl` milliseconds is representable in
the clock's signed 64-bit nanosecond count, that sum is the exact one: then
the lease is unexpired at every `t' < t + ttl`, with `ttl > 0` the immediate
check at `t` finds the lease live, and (old deadline at most `t + ttl`) it is
expired at every `t' ≥ t + ttl`. -/
theorem GrantLease_lease_window (md : ObjectMetadata) (t : Int) (ttl : Nat) :
    (∀ t', t' < timePointAddMilliseconds t (millisecondsOfUInt64 ttl) →
      (md.GrantLease ttl t).IsLeaseExpired t' = false) ∧
    (md.lease_timeout ≤ timePointAddMilliseconds t (millisecondsOfUInt64 ttl) →
      ∀ t', timePointAddMilliseconds t (millisecondsOfUInt64 ttl) ≤ t' →
        (md.GrantLease ttl t).IsLeaseExpired t' = true) ∧
    (inInt64 (t + ttl * 1000000) →
      timePointAddMilliseconds t (millisecondsOfUInt64 ttl) = t + ttl * 1000000 ∧
      (∀ t', t' < t + ttl * 1000000 → (md.GrantLease ttl t).IsLeaseExpired t' = false) ∧
      (0 < ttl → (md.GrantLease ttl t).IsLeaseExpired t = false) ∧
      (md.lease_timeout ≤ t + ttl * 1000000 →
        ∀ t', t + ttl * 1000000 ≤ t' → (md.GrantLease ttl t).IsLeaseExpired t' = true)) := by
  have hlive : ∀ t', t' < timePointAddMilliseconds t (millisecondsOfUInt64 ttl) →
      (md.GrantLease ttl t).IsLeaseExpired t' = false := by
    intro t' h
    simp only [ObjectMetadata.IsLeaseExpired, ObjectMetadata.GrantLease, ge_iff_le,
      decide_eq_false_iff_not, not_le]
    exact lt_of_lt_of_le h (le_max_right _ _)
  have hdead : md.lease_timeout ≤ timePointAddMilliseconds t (millisecondsOfUInt64 ttl) →
      ∀ t', timePointAddMilliseconds t (millisecondsOfUInt64 ttl) ≤ t' →
        (md.GrantLease ttl t).IsLeaseExpired t' = true := by
    intro hold t' h
    simp only [ObjectMetadata.IsLeaseExpired, ObjectMetadata.GrantLease, ge_iff_le,
      decide_eq_true_eq]
    exact le_trans (max_le hold (le_refl _)) h
  refine ⟨hlive, hdead, ?_⟩
  intro hsum
  have hex := timePointAddMilliseconds_ttl_exact t ttl hsum
  rw [hex] at hlive hdead
  refine ⟨hex, hlive, ?_, hdead⟩
  intro hpos
  apply hlive
  have : (0 : Int) < (ttl : Int) := by exact_mod_cast hpos
  omega

/-- C2, amended, at a concrete grant: five seconds of lease granted to a fresh
object five seconds after the epoch. -/
theorem GrantLease_lease_window_witness :
    (ObjectMetadata.default.GrantLease 5000 5000000000).IsLeaseExpired 5000000000 = false ∧
    (ObjectMetadata.default.GrantLease 5000 5000000000).IsLeaseExpired 9999999999 = false ∧
    (ObjectMetadata.default.GrantLease 5000 5000000000).IsLeaseExpired 10000000000 = true :=
  have h := (GrantLease_lease_window ObjectMetadata.default 5000000000 5000).2.2 (by decide)
  ⟨h.2.2.1 (by decide), h.2.1 9999999999 (by decide),
    h.2.2.2 (by decide) 10000000000 (by decide)⟩

/-- C3: `IsLeaseExpired(now)` is true exactly when `now >= lease_timeout`; the
object is read-protected (the check is false) exactly while `lease_timeout` is
strictly after `now`, and a lease whose deadline is `now` counts as expired. -/
theorem IsLeaseExpired_iff (md : ObjectMetadata) (now : Int) :
    (md.IsLeaseExpired now = true ↔ now ≥ md.lease_timeout) ∧
    (md.IsLeaseExpired now = false ↔ now < md.lease_timeout) ∧
    ({ md with lease_timeout := now } : ObjectMetadata).IsLeaseExpired now = true := by
  refine ⟨?_, ?_, ?_⟩
  · simp [ObjectMetadata.IsLeaseExpired]
  · simp [ObjectMetadata.IsLeaseExpired]
  · simp [ObjectMetadata.IsLeaseExpired]

/-- C4, as the code has it: granting `ttl = 2 ^ 64 - 1` milliseconds five
seconds after the epoch to a fresh object leaves the deadline at 4999000000,
one millisecond before the grant, which is not the larger of the deadline
before (the epoch) and grant time plus `ttl`. -/
theorem GrantLease_huge_ttl_not_max :
    2 ^ 64 - 1 < 2 ^ 64 ∧
    ObjectMetadata.default.lease_timeout = 0 ∧
    (ObjectMetadata.default.GrantLease (2 ^ 64 - 1) 5000000000).lease_timeout = 4999000000 ∧
    max ObjectMetadata.default.lease_timeout
        (5000000000 + ((2 ^ 64 - 1 : Nat) : Int) * 1000000)
      = 18446744073709556615000000 ∧
    (ObjectMetadata.default.GrantLease (2 ^ 64 - 1) 5000000000).lease_timeout
      ≠ max ObjectMetadata.default.lease_timeout
          (5000000000 + ((2 ^ 64 - 1 : Nat) : Int) * 1000000) := by
  decide

/-- C4, amended: `GrantLease` only ever extends a lease: the deadline after
the call is the larger of the deadline before and the steady-clock sum the
code computes for `now + ttl`, so it is never earlier than the deadline before,
and the call changes nothing else.  Whenever `now + ttl` milliseconds is
representable in the clock's signed 64-bit nanosecond count the deadline after
the call equals `max(deadline before, now + ttl)`, and for time points in the
signed 64-bit range it differs from that whenever the sum is not
representable.  For time points in the signed 64-bit range the object is left
unchanged whenever `now + ttl` is not larger than the current deadline. -/
theorem GrantLease_only_extends (md : ObjectMetadata) (now : Int) (ttl : Nat) :
    (md.GrantLease ttl now).lease_timeout
      = max md.lease_timeout (timePointAddMilliseconds now (millisecondsOfUInt64 ttl)) ∧
    md.lease_timeout ≤ (md.GrantLease ttl now).lease_timeout ∧
    (md.GrantLease ttl now).replicas = md.replicas ∧
    (md.GrantLease ttl now).size = md.size ∧
    (timePointAddMilliseconds now (millisecondsOfUInt64 ttl) ≤ md.lease_timeout →
      md.GrantLease ttl now = md) ∧
    (inInt64 (now + ttl * 1000000) →
      (md.GrantLease ttl now).lease_timeout = max md.lease_timeout (now + ttl * 1000000) ∧
      (now + ttl * 1000000 ≤ md.lease_timeout → md.GrantLease ttl now = md)) ∧
    (inInt64 now → inInt64 md.lease_timeout → now + ttl * 1000000 ≤ md.lease_timeout →
      md.GrantLease ttl now = md) ∧
    (inInt64 now → inInt64 md.lease_timeout → ¬ inInt64 (now + ttl * 1000000) →
      (md.GrantLease ttl now).lease_timeout ≠ max md.lease_timeout (now + ttl * 1000000)) := by
  have hsame : timePointAddMilliseconds now (millisecondsOfUInt64 ttl) ≤ md.lease_timeout →
      md.GrantLease ttl now = md := by
    intro h
    cases md with
    | mk replicas size lease_timeout =>
      simp only [ObjectMetadata.GrantLease, ObjectMetadata.mk.injEq, true_and]
      exact max_eq_left h
  have hexact : inInt64 (now + ttl * 1000000) →
      (md.GrantLease ttl now).lease_timeout = max md.lease_timeout (now + ttl * 1000000) ∧
      (now + ttl * 1000000 ≤ md.lease_timeout → md.GrantLease ttl now = md) := by
    intro hsum
    have hex := timePointAddMilliseconds_ttl_exact now ttl hsum
    rw [hex] at hsame
    refine ⟨?_, hsame⟩
    simp only [ObjectMetadata.GrantLease, hex]
  refine ⟨rfl, le_max_left _ _, rfl, rfl, hsame, hexact, ?_, ?_⟩
  · intro hnow hold hle
    have hsum : inInt64 (now + ttl * 1000000) := by
      unfold inInt64 at hnow hold ⊢
      omega
    exact (hexact hsum).2 hle
  · intro hnow hold hnot heq
    have hw := timePointAddMilliseconds_inInt64 now (millisecondsOfUInt64 ttl)
    have hlt : (md.GrantLease ttl now).lease_timeout < 2 ^ 63 := by
      show max md.lease_timeout (timePointAddMilliseconds now (millisecondsOfUInt64 ttl)) < 2 ^ 63
      exact max_lt hold.2 hw.2
    have hbig : (2 : Int) ^ 63 ≤ now + ttl * 1000000 := by
      unfold inInt64 at hnow hnot
      omega
    have hge : (2 : Int) ^ 63 ≤ max md.lease_timeout (now + ttl * 1000000) :=
      le_trans hbig (le_max_right _ _)
    rw [heq] at hlt
    exact absurd hge (not_le.2 hlt)

/-- C4, amended, at concrete grants: a grant reaching beyond the deadline moves
it to grant time plus `ttl`, a grant that does not leaves the object as it
was. -/
theorem GrantLease_only_extends_witness :
    (({ replicas := [], size := 8, lease_timeout := 7000000000 } : ObjectMetadata).GrantLease
        5000 5000000000).lease_timeout = 10000000000 ∧
    ({ replicas := [], size := 8, lease_timeout := 7000000000 } : ObjectMetadata).GrantLease
        1000 5000000000 = { replicas := [], size := 8, lease_timeout := 7000000000 } :=
  ⟨((GrantLease_only_extends { replicas := [], size := 8, lease_timeout := 7000000000 }
      5000000000 5000).2.2.2.2.2.1 (by decide)).1,
   (GrantLease_only_extends { replicas := [], size := 8, lease_timeout := 7000000000 }
      5000000000 1000).2.2.2.2.2.2.1 (by decide) (by decide) (by decide)⟩

/-! ## Garbage-collection tasks -/

/-- C9, as the code has it: a task constructed five seconds after the epoch
with a delay of 9223372036855 milliseconds (a valid signed 64-bit count) gets
a due-time far before the epoch, not grant time plus delay, and is ready at
once, at the time of its construction. -/
theorem GCTask_huge_delay_ready_at_once :
    inInt64 9223372036855 ∧
    (5000000000 : Int) < 5000000000 + 9223372036855 * 1000000 ∧
    (GCTask.new "w" 9223372036855 5000000000).deletion_time = -9223372031854551616 ∧
    (GCTask.new "w" 9223372036855 5000000000).deletion_time
      ≠ 5000000000 + 9223372036855 * 1000000 ∧
    (GCTask.new "w" 9223372036855 5000000000).is_ready 5000000000 = true := by
  decide

/-- C9, amended: a `GCTask` constructed at time `t` with delay `d` is due at
the steady-clock sum the code computes for `t + d`, and `is_ready` at time `t'`
is true exactly when `t'` is at or after that due-time, the due instant
included.  Whenever `t + d` milliseconds is representable in the clock's
signed 64-bit nanosecond count the due-time is exactly `t + d` and `is_ready`
at `t'` is true exactly when `t' >= t + d`, so the task is never ready before
its delay has elapsed; whenever it is not representable the due-time is not
`t + d`. -/
theorem GCTask_ready_iff_due (k : String) (d t t' : Int) :
    (GCTask.new k d t).key = k ∧
    (GCTask.new k d t).deletion_time = timePointAddMilliseconds t d ∧
    ((GCTask.new k d t).is_ready t' = true ↔ t' ≥ timePointAddMilliseconds t d) ∧
    ((GCTask.new k d t).is_ready t' = false ↔ t' < timePointAddMilliseconds t d) ∧
    (GCTask.new k d t).is_ready (GCTask.new k d t).deletion_time = true ∧
    (inInt64 (t + d * 1000000) →
      (GCTask.new k d t).deletion_time = t + d * 1000000 ∧
      ((GCTask.new k d t).is_ready t' = true ↔ t' ≥ t + d * 1000000) ∧
      ((GCTask.new k d t).is_ready t' = false ↔ t' < t + d * 1000000)) ∧
    (¬ inInt64 (t + d * 1000000) → (GCTask.new k d t).deletion_time ≠ t + d * 1000000) := by
  refine ⟨rfl, rfl, ?_, ?_, ?_, ?_, ?_⟩
  · simp [GCTask.is_ready, GCTask.new]
  · simp [GCTask.is_ready, GCTask.new]
  · simp [GCTask.is_ready]
  · intro h
    have hex := timePointAddMilliseconds_exact t d h
    simp [GCTask.is_ready, GCTask.new, hex]
  · intro hnot heq
    apply hnot
    rw [← heq]
    exact timePointAddMilliseconds_inInt64 t d

/-- C9, amended, at a concrete task: fifty milliseconds of delay, requested
five seconds after the epoch. -/
theorem GCTask_ready_iff_due_witness :
    (GCTask.new "w" 50 5000000000).deletion_time = 5050000000 ∧
    (GCTask.new "w" 50 5000000000).is_ready 5049999999 = false ∧
    (GCTask.new "w" 50 5000000000).is_ready 5050000000 = true :=
  ⟨((GCTask_ready_iff_due "w" 50 5000000000 0).2.2.2.2.2.1 (by decide)).1,
   ((GCTask_ready_iff_due "w" 50 5000000000 5049999999).2.2.2.2.2.1 (by decide)).2.2.2
    (by decide),
   ((GCTask_ready_iff_due "w" 50 5000000000 5050000000).2.2.2.2.2.1 (by decide)).2.1.2
    (by decide)⟩

theorem GCTaskComparator_iff (a b : GCTask) :
    GCTaskComparator a b = true ↔ b.deletion_time < a.deletion_time := by
  simp [GCTaskComparator]

theorem GCTaskComparator_eq_false_iff (a b : GCTask) :
    GCTaskComparator a b = false ↔ a.deletion_time ≤ b.deletion_time := by
  simp [GCTaskComparator]

theorem GCTask.exists_earliest (l : List GCTask) (hne : l ≠ []) :
    ∃ x ∈ l, ∀ y ∈ l, x.deletion_time ≤ y.deletion_time := by
  induction l with
  | nil => exact absurd rfl hne
  | cons a rest ih =>
    cases rest with
    | nil => exact ⟨a, by simp, by simp⟩
    | cons b rest2 =>
      obtain ⟨x, hx, hmin⟩ := ih (by simp)
      by_cases hax : a.deletion_time ≤ x.deletion_time
      · refine ⟨a, by simp, ?_⟩
        intro y hy
        rcases List.mem_cons.1 hy with rfl | hy2
        · exact le_refl _
        · exact le_trans hax (hmin y hy2)
      · refine ⟨x, List.mem_cons_of_mem _ hx, ?_⟩
        intro y hy
        rcases List.mem_cons.1 hy with rfl | hy2
        · omega
        · exact hmin y hy2

/-- C10: `GCTaskComparator(a, b)` is true exactly when `a` is due strictly
later than `b`; it is irreflexive, asymmetric and transitive, incomparability
under it is transitive, and in every non-empty collection of tasks some task
is ranked below no other, and every such task has the earliest due-time of
the collection. -/
theorem GCTaskComparator_strict_weak_order :
    (∀ a b, GCTaskComparator a b = true ↔ a.deletion_time > b.deletion_time) ∧
    (∀ a, GCTaskComparator a a = false) ∧
    (∀ a b, GCTaskComparator a b = true → GCTaskComparator b a = false) ∧
    (∀ a b c, GCTaskComparator a b = true → GCTaskComparator b c = true →
      GCTaskComparator a c = true) ∧
    (∀ a b c, GCTaskComparator a b = false → GCTaskComparator b a = false →
      GCTaskComparator b c = false → GCTaskComparator c b = false →
      GCTaskComparator a c = false ∧ GCTaskComparator c a = false) ∧
    (∀ l : List GCTask, l ≠ [] →
      (∃ x ∈ l, ∀ y ∈ l, GCTaskComparator x y = false) ∧
      (∀ x ∈ l, (∀ y ∈ l, GCTaskComparator x y = false) →
        ∀ y ∈ l, x.deletion_time ≤ y.deletion_time)) := by
  refine ⟨?_, ?_, ?_, ?_, ?_, ?_⟩
  · intro a b
    simp [GCTaskComparator]
  · intro a
    simp [GCTaskComparator]
  · intro a b h
    rw [GCTaskComparator_iff] at h
    rw [GCTaskComparator_eq_false_iff]
    omega
  · intro a b c h1 h2
    simp only [GCTaskComparator_iff] at *
    omega
  · intro a b c h1 h2 h3 h4
    simp only [GCTaskComparator_eq_false_iff] at *
    constructor <;> omega
  · intro l hne
    constructor
    · obtain ⟨x, hx, hmin⟩ := GCTask.exists_earliest l hne
      exact ⟨x, hx, fun y hy => (GCTaskComparator_eq_false_iff x y).2 (hmin y hy)⟩
    · intro x _ htop y hy
      exact (GCTaskComparator_eq_false_iff x y).1 (htop y hy)

/-- C10 on a concrete queue of three tasks: the task ranked below no other is
due no later than the other two. -/
theorem GCTaskComparator_strict_weak_order_witness :
    (GCTask.mk "b" 10).deletion_time ≤ (GCTask.mk "a" 30).deletion_time ∧
    (GCTask.mk "b" 10).deletion_time ≤ (GCTask.mk "c" 20).deletion_time :=
  have h := (GCTaskComparator_strict_weak_order.2.2.2.2.2
      [GCTask.mk "a" 30, GCTask.mk "b" 10, GCTask.mk "c" 20] (by decide)).2
    (GCTask.mk "b" 10) (by decide) (by decide)
  ⟨h (GCTask.mk "a" 30) (by decide), h (GCTask.mk "c" 20) (by decide)⟩

/-! ## Shards: lemmas -/

theorem MasterService.getShardIndex_lt (s : MasterService) (stdHash : String → Nat)
    (key : String) : s.getShardIndex stdHash key < kNumShards := by
  unfold MasterService.getShardIndex
  exact Nat.mod_lt _ (by decide)

theorem MasterService.shard_setShardMetadata (s : MasterService) (i j : Nat) (m : MetadataMap) :
    (s.setShardMetadata i m).shard j
      = if j = i ∧ i < kNumShards then { metadata := m } else s.shard j := by
  unfold MasterService.shard MasterService.setShardMetadata
  simp only [List.getD_eq_getElem?_getD, List.getElem?_set]
  by_cases hji : j = i
  · subst hji
    by_cases hlt : j < kNumShards
    · have : j < s.metadata_shards_.length := by rw [s.shards_size]; exact hlt
      simp [hlt, this]
    · have hge : s.metadata_shards_.length ≤ j := by
        rw [s.shards_size]; exact Nat.le_of_not_lt hlt
      simp [hlt, List.getElem?_eq_none hge, Nat.not_lt.2 hge]
  · have hij : ¬ i = j := fun h => hji h.symm
    simp [hji, hij]

theorem MasterService.shard_setShardMetadata_same (s : MasterService) (i : Nat)
    (m : MetadataMap) (h : i < kNumShards) :
    (s.setShardMetadata i m).shard i = { metadata := m } := by
  rw [MasterService.shard_setShardMetadata]
  simp [h]

theorem MasterService.shard_setShardMetadata_ne (s : MasterService) (i j : Nat)
    (m : MetadataMap) (h : j ≠ i) :
    (s.setShardMetadata i m).shard j = s.shard j := by
  rw [MasterService.shard_setShardMetadata]
  simp [h]

theorem MasterService.getElem?_shard (s : MasterService) (i : Nat) (h : i < kNumShards) :
    s.metadata_shards_[i]? = some (s.shard i) := by
  have hi : i < s.metadata_shards_.length := by rw [s.shards_size]; exact h
  unfold MasterService.shard
  simp [List.getD_eq_getElem?_getD, List.getElem?_eq_getElem hi]

/-! ## Maps: lemmas -/

namespace MetadataMap

theorem lookup_eq_none_iff (m : MetadataMap) (key : String) :
    m.lookup key = none ↔ key ∉ m.keys := by
  induction m with
  | nil => simp [lookup, keys]
  | cons e rest ih =>
    obtain ⟨k, v⟩ := e
    by_cases h : k = key
    · simp [lookup, keys, h]
    · have h2 : ¬ key = k := fun e => h e.symm
      simp only [lookup, h, if_false, ih]
      simp [keys, h2]

theorem mem_of_lookup_eq_some (m : MetadataMap) (key : String) (v : ObjectMetadata)
    (h : m.lookup key = some v) : (key, v) ∈ m := by
  induction m with
  | nil => simp [lookup] at h
  | cons e rest ih =>
    obtain ⟨k, w⟩ := e
    by_cases hk : k = key
    · simp [lookup, hk] at h
      simp [hk, h]
    · simp only [lookup, hk, if_false] at h
      exact List.mem_cons_of_mem _ (ih h)

theorem keys_assign (m : MetadataMap) (key : String) (w : ObjectMetadata) :
    (m.assign key w).keys = m.keys := by
  induction m with
  | nil => simp [assign]
  | cons e rest ih =>
    obtain ⟨k, v⟩ := e
    by_cases h : k = key
    · simp [assign, keys, h]
    · simp only [assign, h, if_false]
      simp only [keys, List.map_cons] at ih ⊢
      rw [ih]

theorem length_assign (m : MetadataMap) (key : String) (w : ObjectMetadata) :
    (m.assign key w).length = m.length := by
  have := congrArg List.length (keys_assign m key w)
  simpa [keys] using this

theorem lookup_assign_same (m : MetadataMap) (key : String) (v w : ObjectMetadata)
    (h : m.lookup key = some v) : (m.assign key w).lookup key = some w := by
  induction m with
  | nil => simp [lookup] at h
  | cons e rest ih =>
    obtain ⟨k, u⟩ := e
    by_cases hk : k = key
    · simp [assign, lookup, hk]
    · simp only [lookup, hk, if_false] at h
      simp [assign, lookup, hk, ih h]

theorem lookup_assign_ne (m : MetadataMap) (key other : String) (w : ObjectMetadata)
    (h : other ≠ key) : (m.assign key w).lookup other = m.lookup other := by
  induction m with
  | nil => simp [assign]
  | cons e rest ih =>
    obtain ⟨k, u⟩ := e
    by_cases hk : k = key
    · have : ¬ key = other := fun e => h e.symm
      simp [assign, lookup, hk, this]
    · simp only [assign, hk, if_false, lookup, ih]

theorem assign_of_lookup (m : MetadataMap) (key : String) (v : ObjectMetadata)
    (h : m.lookup key = some v) : m.assign key v = m := by
  induction m with
  | nil => rfl
  | cons e rest ih =>
    obtain ⟨k, u⟩ := e
    by_cases hk : k = key
    · simp [lookup, hk] at h
      simp [assign, hk, h]
    · simp only [lookup, hk, if_false] at h
      simp [assign, hk, ih h]

theorem erase_assign (m : MetadataMap) (key : String) (w : ObjectMetadata) :
    (m.assign key w).erase key = m.erase key := by
  induction m with
  | nil => rfl
  | cons e rest ih =>
    obtain ⟨k, u⟩ := e
    by_cases hk : k = key
    · simp [assign, erase, hk]
    · simp [assign, erase, hk, ih]

theorem erase_sublist (m : MetadataMap) (key : String) : List.Sublist (m.erase key) m := by
  induction m with
  | nil => exact List.Sublist.slnil
  | cons e rest ih =>
    obtain ⟨k, u⟩ := e
    by_cases hk : k = key
    · simp [erase, hk]
    · simp only [erase, hk, if_false]
      exact List.Sublist.cons₂ _ ih

theorem mem_of_mem_erase (m : MetadataMap) (key : String) (e : String × ObjectMetadata)
    (h : e ∈ m.erase key) : e ∈ m :=
  (erase_sublist m key).subset h

theorem lookup_erase_ne (m : MetadataMap) (key other : String) (h : other ≠ key) :
    (m.erase key).lookup other = m.lookup other := by
  induction m with
  | nil => rfl
  | cons e rest ih =>
    obtain ⟨k, u⟩ := e
    by_cases hk : k = key
    · have : ¬ key = other := fun e => h e.symm
      simp [erase, lookup, hk, this]
    · simp only [erase, hk, if_false, lookup, ih]

theorem lookup_erase_same (m : MetadataMap) (key : String) (hwf : m.WF) :
    (m.erase key).lookup key = none := by
  induction m with
  | nil => rfl
  | cons e rest ih =>
    obtain ⟨k, u⟩ := e
    have hnd : k ∉ keys rest ∧ (keys rest).Nodup := by
      simpa [WF, keys] using hwf
    by_cases hk : k = key
    · subst hk
      simp only [erase, if_true]
      exact (lookup_eq_none_iff rest k).2 hnd.1
    · simp only [erase, hk, if_false, lookup]
      exact ih hnd.2

theorem WF_erase (m : MetadataMap) (key : String) (hwf : m.WF) : (m.erase key).WF :=
  List.Nodup.sublist ((erase_sublist m key).map Prod.fst) hwf

theorem WF_assign (m : MetadataMap) (key : String) (w : ObjectMetadata) (hwf : m.WF) :
    (m.assign key w).WF := by
  unfold WF
  rw [keys_assign]
  exact hwf

end MetadataMap


/-! ## MetadataAccessor: lemmas -/

namespace MetadataAccessor

theorem new_absent (stdHash : String → Nat) (cleanup : ObjectMetadata → Bool × ObjectMetadata)
    (s : MasterService) (key : String)
    (h : (s.shard (s.getShardIndex stdHash key)).metadata.lookup key = none) :
    new stdHash cleanup s key
      = { service_ := s, key_ := key, shard_idx_ := s.getShardIndex stdHash key, it_ := none } := by
  simp only [new, h, MetadataMap.find]

theorem new_stale (stdHash : String → Nat) (cleanup : ObjectMetadata → Bool × ObjectMetadata)
    (s : MasterService) (key : String) (md : ObjectMetadata)
    (h : (s.shard (s.getShardIndex stdHash key)).metadata.lookup key = some md)
    (hc : (cleanup md).1 = true) :
    new stdHash cleanup s key
      = { service_ := s.setShardMetadata (s.getShardIndex stdHash key)
            ((s.shard (s.getShardIndex stdHash key)).metadata.erase key)
          key_ := key, shard_idx_ := s.getShardIndex stdHash key, it_ := none } := by
  simp only [new, h, hc, if_true, MetadataMap.erase_assign]

theorem new_kept (stdHash : String → Nat) (cleanup : ObjectMetadata → Bool × ObjectMetadata)
    (s : MasterService) (key : String) (md : ObjectMetadata)
    (h : (s.shard (s.getShardIndex stdHash key)).metadata.lookup key = some md)
    (hc : (cleanup md).1 = false) :
    new stdHash cleanup s key
      = { service_ := s.setShardMetadata (s.getShardIndex stdHash key)
            ((s.shard (s.getShardIndex stdHash key)).metadata.assign key (cleanup md).2)
          key_ := key, shard_idx_ := s.getShardIndex stdHash key, it_ := some key } := by
  simp [new, h, hc, MetadataMap.find]

theorem new_key (stdHash : String → Nat) (cleanup : ObjectMetadata → Bool × ObjectMetadata)
    (s : MasterService) (key : String) :
    (new stdHash cleanup s key).key_ = key ∧
    (new stdHash cleanup s key).shard_idx_ = s.getShardIndex stdHash key := by
  cases h : (s.shard (s.getShardIndex stdHash key)).metadata.lookup key with
  | none => rw [new_absent stdHash cleanup s key h]; exact ⟨rfl, rfl⟩
  | some md =>
    cases hc : (cleanup md).1 with
    | true => rw [new_stale stdHash cleanup s key md h hc]; exact ⟨rfl, rfl⟩
    | false => rw [new_kept stdHash cleanup s key md h hc]; exact ⟨rfl, rfl⟩

end MetadataAccessor


theorem MasterService.set_getD_self (l : List MetadataShard) (i : Nat) (d : MetadataShard) :
    l.set i (l.getD i d) = l := by
  induction l generalizing i with
  | nil => rfl
  | cons a rest ih =>
    cases i with
    | zero => rfl
    | succ i =>
      simp only [List.set_cons_succ, List.getD_cons_succ, ih]

theorem MasterService.setShardMetadata_self (s : MasterService) (i : Nat) :
    s.setShardMetadata i (s.shard i).metadata = s := by
  cases s with
  | mk shards hsize =>
    simp only [MasterService.setShardMetadata, MasterService.shard, MasterService.mk.injEq]
    exact MasterService.set_getD_self shards i _

/-- C8: constructing a `MetadataAccessor` for `key` cleans up exactly the
entry of `key`.  If `key` is absent from its shard the service is unchanged and
`Exists()` is false; if it is present and `CleanupStaleHandles` returns true,
the entry is erased from the shard (no entry for `key` remains) and `Exists()`
is false; if it is present and `CleanupStaleHandles` returns false, the entry
is kept, `Exists()` is true and `Get()` is the metadata stored under `key`, as
`CleanupStaleHandles` left them.  So `Exists()` after construction means the
entry was present and judged to have no stale handle. -/
theorem MetadataAccessor_new_cleanup (stdHash : String → Nat)
    (cleanup : ObjectMetadata → Bool × ObjectMetadata) (s : MasterService) (key : String) :
    ((s.shard (s.getShardIndex stdHash key)).metadata.lookup key = none →
      (MetadataAccessor.new stdHash cleanup s key).service_ = s ∧
      (MetadataAccessor.new stdHash cleanup s key).Exists = false) ∧
    (∀ md, (s.shard (s.getShardIndex stdHash key)).metadata.lookup key = some md →
      (cleanup md).1 = true →
      (MetadataAccessor.new stdHash cleanup s key).Exists = false ∧
      ((MetadataAccessor.new stdHash cleanup s key).service_.shard
          (s.getShardIndex stdHash key)).metadata
        = (s.shard (s.getShardIndex stdHash key)).metadata.erase key ∧
      ((s.shard (s.getShardIndex stdHash key)).metadata.WF →
        ((MetadataAccessor.new stdHash cleanup s key).service_.shard
          (s.getShardIndex stdHash key)).metadata.lookup key = none)) ∧
    (∀ md, (s.shard (s.getShardIndex stdHash key)).metadata.lookup key = some md →
      (cleanup md).1 = false →
      (MetadataAccessor.new stdHash cleanup s key).Exists = true ∧
      (MetadataAccessor.new stdHash cleanup s key).Get = some (cleanup md).2 ∧
      ((MetadataAccessor.new stdHash cleanup s key).service_.shard
          (s.getShardIndex stdHash key)).metadata.lookup key = some (cleanup md).2 ∧
      ((MetadataAccessor.new stdHash cleanup s key).service_.shard
          (s.getShardIndex stdHash key)).metadata
        = (s.shard (s.getShardIndex stdHash key)).metadata.assign key (cleanup md).2 ∧
      ((cleanup md).2 = md →
        (MetadataAccessor.new stdHash cleanup s key).service_ = s ∧
        (MetadataAccessor.new stdHash cleanup s key).Get = some md)) ∧
    ((MetadataAccessor.new stdHash cleanup s key).Exists = true →
      ∃ md, (s.shard (s.getShardIndex stdHash key)).metadata.lookup key = some md ∧
        (cleanup md).1 = false) := by
  have hlt := s.getShardIndex_lt stdHash key
  refine ⟨?_, ?_, ?_, ?_⟩
  · intro h
    rw [MetadataAccessor.new_absent stdHash cleanup s key h]
    exact ⟨rfl, rfl⟩
  · intro md h hc
    rw [MetadataAccessor.new_stale stdHash cleanup s key md h hc]
    refine ⟨rfl, ?_, ?_⟩
    · simp only [MasterService.shard_setShardMetadata_same _ _ _ hlt]
    · intro hwf
      simp only [MasterService.shard_setShardMetadata_same _ _ _ hlt]
      exact MetadataMap.lookup_erase_same _ key hwf
  · intro md h hc
    rw [MetadataAccessor.new_kept stdHash cleanup s key md h hc]
    have hlook := MetadataMap.lookup_assign_same _ key md (cleanup md).2 h
    refine ⟨rfl, ?_, ?_, ?_, ?_⟩
    · simp only [MetadataAccessor.Get, MasterService.shard_setShardMetadata_same _ _ _ hlt]
      exact hlook
    · simp only [MasterService.shard_setShardMetadata_same _ _ _ hlt]
      exact hlook
    · simp only [MasterService.shard_setShardMetadata_same _ _ _ hlt]
    · intro hsame
      rw [hsame, MetadataMap.assign_of_lookup _ key md h, MasterService.setShardMetadata_self]
      exact ⟨rfl, by simp only [MetadataAccessor.Get]; exact h⟩
  · intro hex
    cases h : (s.shard (s.getShardIndex stdHash key)).metadata.lookup key with
    | none =>
      rw [MetadataAccessor.new_absent stdHash cleanup s key h] at hex
      exact absurd hex (by simp [MetadataAccessor.Exists])
    | some md =>
      cases hc : (cleanup md).1 with
      | true =>
        rw [MetadataAccessor.new_stale stdHash cleanup s key md h hc] at hex
        exact absurd hex (by simp [MetadataAccessor.Exists])
      | false => exact ⟨md, rfl, hc⟩


/-! ## The placement invariant -/

theorem MetadataMap.mem_emplace (m : MetadataMap) (key : String) (value : ObjectMetadata)
    (e : String × ObjectMetadata) (h : e ∈ (m.emplace key value).1) : e ∈ m ∨ e.1 = key := by
  unfold MetadataMap.emplace at h
  cases hl : m.lookup key with
  | some v =>
    rw [hl] at h
    exact Or.inl h
  | none =>
    rw [hl] at h
    rcases List.mem_cons.1 h with rfl | h2
    · exact Or.inr rfl
    · exact Or.inl h2

theorem MetadataMap.mem_keys_of_mem_assign (m : MetadataMap) (key : String)
    (w : ObjectMetadata) (e : String × ObjectMetadata) (h : e ∈ m.assign key w) :
    e.1 ∈ m.keys := by
  rw [← MetadataMap.keys_assign m key w]
  exact List.mem_map_of_mem Prod.fst h

theorem ShardPlacement_init (stdHash : String → Nat) :
    ShardPlacement stdHash MasterService.init := by
  intro i e he
  exfalso
  have hshard : (MasterService.init.shard i).metadata = [] := by
    unfold MasterService.shard MasterService.init
    rw [List.getD_eq_getElem?_getD, List.getElem?_replicate]
    split <;> rfl
  rw [hshard] at he
  exact List.not_mem_nil _ he

theorem ShardPlacement_iff_keys (stdHash : String → Nat) (s : MasterService) :
    ShardPlacement stdHash s ↔
      ∀ i : Nat, ∀ k ∈ (s.shard i).metadata.keys, stdHash k % kNumShards = i := by
  constructor
  · intro h i k hk
    obtain ⟨e, he, rfl⟩ := List.mem_map.1 hk
    exact h i e he
  · intro h i e he
    exact h i e.1 (List.mem_map_of_mem Prod.fst he)

theorem ShardPlacement_setShardMetadata (stdHash : String → Nat) (s : MasterService) (i : Nat)
    (m : MetadataMap) (hs : ShardPlacement stdHash s)
    (hm : ∀ k ∈ m.keys, stdHash k % kNumShards = i) :
    ShardPlacement stdHash (s.setShardMetadata i m) := by
  rw [ShardPlacement_iff_keys] at hs ⊢
  intro j k hk
  rw [MasterService.shard_setShardMetadata] at hk
  split at hk
  · rename_i hji
    rw [hji.1]
    exact hm k hk
  · exact hs j k hk

theorem MetadataAccessor.new_placement (stdHash : String → Nat)
    (cleanup : ObjectMetadata → Bool × ObjectMetadata) (s : MasterService) (key : String)
    (hs : ShardPlacement stdHash s) :
    ShardPlacement stdHash (MetadataAccessor.new stdHash cleanup s key).service_ := by
  have hkeys := (ShardPlacement_iff_keys stdHash s).1 hs (s.getShardIndex stdHash key)
  cases h : (s.shard (s.getShardIndex stdHash key)).metadata.lookup key with
  | none => rw [MetadataAccessor.new_absent stdHash cleanup s key h]; exact hs
  | some md =>
    cases hc : (cleanup md).1 with
    | true =>
      rw [MetadataAccessor.new_stale stdHash cleanup s key md h hc]
      apply ShardPlacement_setShardMetadata stdHash s _ _ hs
      intro k hk
      exact hkeys k ((MetadataMap.erase_sublist _ key).map Prod.fst |>.subset hk)
    | false =>
      rw [MetadataAccessor.new_kept stdHash cleanup s key md h hc]
      apply ShardPlacement_setShardMetadata stdHash s _ _ hs
      intro k hk
      rw [MetadataMap.keys_assign] at hk
      exact hkeys k hk

theorem MetadataAccessor.Create_placement (stdHash : String → Nat) (acc : MetadataAccessor)
    (hs : ShardPlacement stdHash acc.service_)
    (hidx : acc.shard_idx_ = stdHash acc.key_ % kNumShards) :
    ShardPlacement stdHash acc.Create.service_ := by
  have hkeys := (ShardPlacement_iff_keys stdHash acc.service_).1 hs acc.shard_idx_
  unfold MetadataAccessor.Create
  apply ShardPlacement_setShardMetadata stdHash acc.service_ _ _ hs
  intro k hk
  obtain ⟨e, he, rfl⟩ := List.mem_map.1 hk
  rcases MetadataMap.mem_emplace _ _ _ e he with h1 | h2
  · exact hkeys e.1 (List.mem_map_of_mem Prod.fst h1)
  · rw [h2, hidx]

theorem MetadataAccessor.Erase_placement (stdHash : String → Nat) (acc next : MetadataAccessor)
    (hs : ShardPlacement stdHash acc.service_) (he : acc.Erase = some next) :
    ShardPlacement stdHash next.service_ := by
  have hkeys := (ShardPlacement_iff_keys stdHash acc.service_).1 hs acc.shard_idx_
  unfold MetadataAccessor.Erase at he
  cases hit : acc.it_ with
  | none => rw [hit] at he; exact Option.noConfusion he
  | some k =>
    rw [hit] at he
    simp only [Option.some.injEq] at he
    rw [← he]
    apply ShardPlacement_setShardMetadata stdHash acc.service_ _ _ hs
    intro k2 hk2
    exact hkeys k2 ((MetadataMap.erase_sublist _ k).map Prod.fst |>.subset hk2)

theorem MetadataAccessor.call_fields (acc next : MetadataAccessor) (c : AccessorCall)
    (h : acc.call c = some next) :
    next.key_ = acc.key_ ∧ next.shard_idx_ = acc.shard_idx_ := by
  cases c with
  | Create =>
    simp only [MetadataAccessor.call, Option.some.injEq] at h
    rw [← h]
    exact ⟨rfl, rfl⟩
  | Erase =>
    simp only [MetadataAccessor.call, MetadataAccessor.Erase] at h
    cases hit : acc.it_ with
    | none => rw [hit] at h; exact Option.noConfusion h
    | some k =>
      rw [hit] at h
      simp only [Option.some.injEq] at h
      rw [← h]
      exact ⟨rfl, rfl⟩

theorem MetadataAccessor.calls_fields (todo : List AccessorCall) (acc last : MetadataAccessor)
    (h : acc.calls todo = some last) :
    last.key_ = acc.key_ ∧ last.shard_idx_ = acc.shard_idx_ := by
  induction todo generalizing acc with
  | nil =>
    simp only [MetadataAccessor.calls, Option.some.injEq] at h
    rw [← h]
    exact ⟨rfl, rfl⟩
  | cons c cs ih =>
    simp only [MetadataAccessor.calls] at h
    cases hc : acc.call c with
    | none => rw [hc] at h; exact Option.noConfusion h
    | some next =>
      rw [hc] at h
      have h1 := MetadataAccessor.call_fields acc next c hc
      have h2 := ih next h
      exact ⟨h2.1.trans h1.1, h2.2.trans h1.2⟩

theorem MetadataAccessor.calls_placement (stdHash : String → Nat) (todo : List AccessorCall)
    (acc last : MetadataAccessor)
    (hs : ShardPlacement stdHash acc.service_)
    (hidx : acc.shard_idx_ = stdHash acc.key_ % kNumShards)
    (h : acc.calls todo = some last) :
    ShardPlacement stdHash last.service_ := by
  induction todo generalizing acc with
  | nil =>
    simp only [MetadataAccessor.calls, Option.some.injEq] at h
    rw [← h]
    exact hs
  | cons c cs ih =>
    simp only [MetadataAccessor.calls] at h
    cases hc : acc.call c with
    | none => rw [hc] at h; exact Option.noConfusion h
    | some next =>
      rw [hc] at h
      have hf := MetadataAccessor.call_fields acc next c hc
      have hnext : ShardPlacement stdHash next.service_ := by
        cases c with
        | Create =>
          simp only [MetadataAccessor.call, Option.some.injEq] at hc
          rw [← hc]
          exact MetadataAccessor.Create_placement stdHash acc hs hidx
        | Erase => exact MetadataAccessor.Erase_placement stdHash acc next hs hc
      exact ih next hnext (by rw [hf.1, hf.2]; exact hidx) h

theorem runScope_placement (stdHash : String → Nat) (s next : MasterService)
    (sc : AccessorScope) (hs : ShardPlacement stdHash s)
    (h : runScope stdHash s sc = some next) : ShardPlacement stdHash next := by
  unfold runScope at h
  cases hc : (MetadataAccessor.new stdHash sc.cleanup s sc.key).calls sc.todo with
  | none => rw [hc] at h; exact Option.noConfusion h
  | some last =>
    rw [hc] at h
    simp only [Option.some.injEq] at h
    rw [← h]
    have hk := MetadataAccessor.new_key stdHash sc.cleanup s sc.key
    exact MetadataAccessor.calls_placement stdHash sc.todo _ last
      (MetadataAccessor.new_placement stdHash sc.cleanup s sc.key hs)
      (by rw [hk.1, hk.2]; rfl) hc

theorem runScopes_placement (stdHash : String → Nat) (scopes : List AccessorScope)
    (s last : MasterService) (hs : ShardPlacement stdHash s)
    (h : runScopes stdHash s scopes = some last) : ShardPlacement stdHash last := by
  induction scopes generalizing s with
  | nil =>
    simp only [runScopes, Option.some.injEq] at h
    rw [← h]
    exact hs
  | cons sc rest ih =>
    simp only [runScopes] at h
    cases hc : runScope stdHash s sc with
    | none => rw [hc] at h; exact Option.noConfusion h
    | some next =>
      rw [hc] at h
      exact ih next (runScope_placement stdHash s next sc hs hc) h

/-! ## Well-formedness of the shards -/

theorem MetadataMap.WF_emplace (m : MetadataMap) (key : String) (value : ObjectMetadata)
    (hwf : m.WF) : (m.emplace key value).1.WF := by
  unfold MetadataMap.emplace
  cases hl : m.lookup key with
  | some v => exact hwf
  | none =>
    have hnot := (MetadataMap.lookup_eq_none_iff m key).1 hl
    unfold MetadataMap.WF at hwf ⊢
    simp only [MetadataMap.keys, List.map_cons] at hnot hwf ⊢
    exact List.nodup_cons.2 ⟨hnot, hwf⟩

theorem ShardsWF_init : ShardsWF MasterService.init := by
  intro i
  have hshard : (MasterService.init.shard i).metadata = [] := by
    unfold MasterService.shard MasterService.init
    rw [List.getD_eq_getElem?_getD, List.getElem?_replicate]
    split <;> rfl
  rw [hshard]
  exact List.nodup_nil

theorem ShardsWF_setShardMetadata (s : MasterService) (i : Nat) (m : MetadataMap)
    (hs : ShardsWF s) (hm : m.WF) : ShardsWF (s.setShardMetadata i m) := by
  intro j
  rw [MasterService.shard_setShardMetadata]
  split
  · exact hm
  · exact hs j

theorem MetadataAccessor.new_WF (stdHash : String → Nat)
    (cleanup : ObjectMetadata → Bool × ObjectMetadata) (s : MasterService) (key : String)
    (hs : ShardsWF s) : ShardsWF (MetadataAccessor.new stdHash cleanup s key).service_ := by
  cases h : (s.shard (s.getShardIndex stdHash key)).metadata.lookup key with
  | none => rw [MetadataAccessor.new_absent stdHash cleanup s key h]; exact hs
  | some md =>
    cases hc : (cleanup md).1 with
    | true =>
      rw [MetadataAccessor.new_stale stdHash cleanup s key md h hc]
      exact ShardsWF_setShardMetadata s _ _ hs (MetadataMap.WF_erase _ key (hs _))
    | false =>
      rw [MetadataAccessor.new_kept stdHash cleanup s key md h hc]
      exact ShardsWF_setShardMetadata s _ _ hs (MetadataMap.WF_assign _ key _ (hs _))

theorem MetadataAccessor.call_WF (acc next : MetadataAccessor) (c : AccessorCall)
    (hs : ShardsWF acc.service_) (h : acc.call c = some next) : ShardsWF next.service_ := by
  cases c with
  | Create =>
    simp only [MetadataAccessor.call, Option.some.injEq] at h
    rw [← h]
    exact ShardsWF_setShardMetadata acc.service_ _ _ hs (MetadataMap.WF_emplace _ _ _ (hs _))
  | Erase =>
    simp only [MetadataAccessor.call, MetadataAccessor.Erase] at h
    cases hit : acc.it_ with
    | none => rw [hit] at h; exact Option.noConfusion h
    | some k =>
      rw [hit] at h
      simp only [Option.some.injEq] at h
      rw [← h]
      exact ShardsWF_setShardMetadata acc.service_ _ _ hs (MetadataMap.WF_erase _ k (hs _))

theorem MetadataAccessor.calls_WF (todo : List AccessorCall) (acc last : MetadataAccessor)
    (hs : ShardsWF acc.service_) (h : acc.calls todo = some last) :
    ShardsWF last.service_ := by
  induction todo generalizing acc with
  | nil =>
    simp only [MetadataAccessor.calls, Option.some.injEq] at h
    rw [← h]
    exact hs
  | cons c cs ih =>
    simp only [MetadataAccessor.calls] at h
    cases hc : acc.call c with
    | none => rw [hc] at h; exact Option.noConfusion h
    | some next =>
      rw [hc] at h
      exact ih next (MetadataAccessor.call_WF acc next c hs hc) h

theorem runScopes_WF (stdHash : String → Nat) (scopes : List AccessorScope)
    (s last : MasterService) (hs : ShardsWF s)
    (h : runScopes stdHash s scopes = some last) : ShardsWF last := by
  induction scopes generalizing s with
  | nil =>
    simp only [runScopes, Option.some.injEq] at h
    rw [← h]
    exact hs
  | cons sc rest ih =>
    simp only [runScopes] at h
    cases hc : runScope stdHash s sc with
    | none => rw [hc] at h; exact Option.noConfusion h
    | some next =>
      rw [hc] at h
      apply ih next _ h
      unfold runScope at hc
      cases hcalls : (MetadataAccessor.new stdHash sc.cleanup s sc.key).calls sc.todo with
      | none => rw [hcalls] at hc; exact Option.noConfusion hc
      | some acc =>
        rw [hcalls] at hc
        simp only [Option.some.injEq] at hc
        rw [← hc]
        exact MetadataAccessor.calls_WF sc.todo _ acc
          (MetadataAccessor.new_WF stdHash sc.cleanup s sc.key hs) hcalls

theorem MetadataAccessor.Erase_isSome (acc : MetadataAccessor) :
    acc.Erase.isSome = acc.Exists := by
  unfold MetadataAccessor.Erase MetadataAccessor.Exists
  cases acc.it_ <;> rfl

theorem MetadataAccessor.Create_Exists (acc : MetadataAccessor) : acc.Create.Exists = true := by
  unfold MetadataAccessor.Create MetadataAccessor.Exists MetadataMap.emplace
  cases (acc.service_.shard acc.shard_idx_).metadata.lookup acc.key_ <;> rfl

/-! ## The default object, the shard index and the accessor -/

/-- C5: a default-constructed `ObjectMetadata` has its lease deadline at the
clock's epoch and no replicas, and is expired at every time at or after the
epoch; it is the value `Create` stores for a key that is absent. -/
theorem default_metadata_expired :
    ObjectMetadata.default.lease_timeout = 0 ∧
    ObjectMetadata.default.replicas = [] ∧
    (∀ now : Int, 0 ≤ now → ObjectMetadata.default.IsLeaseExpired now = true) ∧
    (∀ (stdHash : String → Nat) (cleanup : ObjectMetadata → Bool × ObjectMetadata)
        (s : MasterService) (key : String),
      (s.shard (s.getShardIndex stdHash key)).metadata.lookup key = none →
      (MetadataAccessor.new stdHash cleanup s key).Create.Get = some ObjectMetadata.default) := by
  refine ⟨rfl, rfl, ?_, ?_⟩
  · intro now h
    simpa [ObjectMetadata.IsLeaseExpired, ObjectMetadata.default] using h
  · intro stdHash cleanup s key h
    rw [MetadataAccessor.new_absent stdHash cleanup s key h]
    simp only [MetadataAccessor.Create, MetadataAccessor.Get, MetadataMap.emplace, h,
      MasterService.shard_setShardMetadata_same _ _ _ (s.getShardIndex_lt stdHash key)]
    simp [MetadataMap.lookup]

/-- C5 at concrete inputs: the default object is expired five seconds after
the epoch, and it is what `Create` stores under the key `z` of a fresh
service. -/
theorem default_metadata_expired_witness :
    ObjectMetadata.default.IsLeaseExpired 5000000000 = true ∧
    (MetadataAccessor.new sampleHash cleanupNoneStale MasterService.init "z").Create.Get
      = some ObjectMetadata.default :=
  ⟨default_metadata_expired.2.2.1 5000000000 (by decide),
   default_metadata_expired.2.2.2 sampleHash cleanupNoneStale MasterService.init "z"
    (by decide)⟩

/-- C6: `getShardIndex(key)` is `hash(key) mod 1024`, strictly less than
`kNumShards = 1024`, so `metadata_shards_[getShardIndex(key)]` is an element of
the 1024-element shard array, and so is `metadata_shards_[shard_idx_]` for the
accessor of `key` after its construction and after any calls on it; the index
is the same whatever the state of the service. -/
theorem getShardIndex_in_bounds (stdHash : String → Nat) (s : MasterService) (key : String) :
    kNumShards = 1024 ∧
    s.getShardIndex stdHash key = stdHash key % 1024 ∧
    s.getShardIndex stdHash key < kNumShards ∧
    s.metadata_shards_.length = 1024 ∧
    s.metadata_shards_[s.getShardIndex stdHash key]?
      = some (s.shard (s.getShardIndex stdHash key)) ∧
    (∀ other : MasterService,
      other.getShardIndex stdHash key = s.getShardIndex stdHash key) ∧
    (∀ (cleanup : ObjectMetadata → Bool × ObjectMetadata) (todo : List AccessorCall)
        (acc : MetadataAccessor),
      (MetadataAccessor.new stdHash cleanup s key).calls todo = some acc →
      acc.shard_idx_ = stdHash key % 1024 ∧
      acc.shard_idx_ < acc.service_.metadata_shards_.length ∧
      acc.service_.metadata_shards_[acc.shard_idx_]?
        = some (acc.service_.shard acc.shard_idx_)) := by
  have hlt := s.getShardIndex_lt stdHash key
  refine ⟨rfl, rfl, hlt, s.shards_size, s.getElem?_shard _ hlt, fun _ => rfl, ?_⟩
  intro cleanup todo acc h
  have hf := MetadataAccessor.calls_fields todo _ acc h
  have hk := MetadataAccessor.new_key stdHash cleanup s key
  have hidx : acc.shard_idx_ = s.getShardIndex stdHash key := hf.2.trans hk.2
  have hlt2 : acc.shard_idx_ < kNumShards := by rw [hidx]; exact hlt
  refine ⟨hidx, ?_, acc.service_.getElem?_shard _ hlt2⟩
  rw [acc.service_.shards_size]
  exact hlt2

/-- C6 at a concrete accessor: the key `abc` of the sample service, after
`Create`. -/
theorem getShardIndex_in_bounds_witness :
    (MetadataAccessor.new sampleHash cleanupNoneStale sampleService "abc").Create.shard_idx_
      = sampleHash "abc" % 1024 :=
  ((getShardIndex_in_bounds sampleHash sampleService "abc").2.2.2.2.2.2 cleanupNoneStale
    [AccessorCall.Create] _ rfl).1

/-- C7: the service starts with 1024 empty shards, and after any sequence of
accessor constructions, `Create` calls and `Erase` calls for arbitrary keys
every key stored in shard `i` has `getShardIndex(key) = i`, so no key is stored
in two different shards (nor twice in one); this holds between accessors and
while an accessor is live. -/
theorem shard_placement_invariant (stdHash : String → Nat) (scopes : List AccessorScope)
    (s : MasterService) (h : runScopes stdHash MasterService.init scopes = some s) :
    MasterService.init.metadata_shards_ = List.replicate 1024 { metadata := [] } ∧
    ShardPlacement stdHash s ∧
    (∀ i k, k ∈ (s.shard i).metadata.keys → s.getShardIndex stdHash k = i) ∧
    (∀ i j k, k ∈ (s.shard i).metadata.keys → k ∈ (s.shard j).metadata.keys → i = j) ∧
    ShardsWF s ∧
    (∀ (key : String) (cleanup : ObjectMetadata → Bool × ObjectMetadata)
        (todo : List AccessorCall) (acc : MetadataAccessor),
      (MetadataAccessor.new stdHash cleanup s key).calls todo = some acc →
      ShardPlacement stdHash acc.service_) := by
  have hp := runScopes_placement stdHash scopes _ s (ShardPlacement_init stdHash) h
  have hk := (ShardPlacement_iff_keys stdHash s).1 hp
  refine ⟨rfl, hp, hk, ?_, runScopes_WF stdHash scopes _ s ShardsWF_init h, ?_⟩
  · intro i j k hi hj
    rw [← hk i k hi, ← hk j k hj]
  · intro key cleanup todo acc hacc
    have hkey := MetadataAccessor.new_key stdHash cleanup s key
    exact MetadataAccessor.calls_placement stdHash todo _ acc
      (MetadataAccessor.new_placement stdHash cleanup s key hp)
      (by rw [hkey.1, hkey.2]; rfl) hacc

/-- C7 on the sample scopes: the run is defined and ends in `sampleFinal`,
with `bb` in shard 2, `ccc` in shard 3 and nothing in shard 1, and the
placement invariant holds there. -/
theorem shard_placement_invariant_witness :
    runScopes sampleHash MasterService.init sampleScopes = some sampleFinal ∧
    (sampleFinal.shard 1).metadata.keys = [] ∧
    (sampleFinal.shard 2).metadata.keys = ["bb"] ∧
    (sampleFinal.shard 3).metadata.keys = ["ccc"] ∧
    ShardPlacement sampleHash sampleFinal :=
  ⟨rfl, by decide, by decide, by decide,
    (shard_placement_invariant sampleHash sampleScopes sampleFinal rfl).2.1⟩

/-- C8 on the sample service: with every segment mounted the accessor of `y`
exposes the stored object; with every segment unmounted the entry is erased
and the accessor reports it absent; the accessor of a key that is not stored
leaves the service as it was. -/
theorem MetadataAccessor_new_cleanup_witness :
    ((MetadataAccessor.new sampleHash cleanupNoneStale sampleService "y").Exists = true ∧
      (MetadataAccessor.new sampleHash cleanupNoneStale sampleService "y").Get
        = some sampleObject) ∧
    ((MetadataAccessor.new sampleHash cleanupAllStale sampleService "y").Exists = false ∧
      ((MetadataAccessor.new sampleHash cleanupAllStale sampleService "y").service_.shard
        (sampleService.getShardIndex sampleHash "y")).metadata.lookup "y" = none) ∧
    (MetadataAccessor.new sampleHash cleanupNoneStale sampleService "x").service_
      = sampleService :=
  have h := MetadataAccessor_new_cleanup sampleHash cleanupNoneStale sampleService "y"
  have hs := MetadataAccessor_new_cleanup sampleHash cleanupAllStale sampleService "y"
  have hx := MetadataAccessor_new_cleanup sampleHash cleanupNoneStale sampleService "x"
  ⟨⟨(h.2.2.1 sampleObject (by decide) rfl).1, (h.2.2.1 sampleObject (by decide) rfl).2.1⟩,
   ⟨(hs.2.1 sampleObject (by decide) rfl).1,
    (hs.2.1 sampleObject (by decide) rfl).2.2 (by unfold MetadataMap.WF; decide)⟩,
   (hx.1 (by decide)).1⟩

/-! ## Maps: insertion, removal and the other keys -/

theorem MetadataMap.lookup_emplace_same (m : MetadataMap) (key : String)
    (value : ObjectMetadata) :
    (m.emplace key value).1.lookup key
      = some ((m.lookup key).getD value) := by
  unfold MetadataMap.emplace
  cases hl : m.lookup key with
  | some v => simp [hl]
  | none => simp [MetadataMap.lookup]

theorem MetadataMap.lookup_emplace_ne (m : MetadataMap) (key other : String)
    (value : ObjectMetadata) (h : other ≠ key) :
    (m.emplace key value).1.lookup other = m.lookup other := by
  unfold MetadataMap.emplace
  cases hl : m.lookup key with
  | some v => rfl
  | none =>
    have : ¬ key = other := fun e => h e.symm
    simp [MetadataMap.lookup, this]

theorem MetadataMap.length_erase (m : MetadataMap) (key : String) (md : ObjectMetadata)
    (h : m.lookup key = some md) : (m.erase key).length + 1 = m.length := by
  induction m with
  | nil => simp [MetadataMap.lookup] at h
  | cons e rest ih =>
    obtain ⟨k, u⟩ := e
    by_cases hk : k = key
    · simp [MetadataMap.erase, hk]
    · simp only [MetadataMap.lookup, hk, if_false] at h
      simp [MetadataMap.erase, hk, ih h]

theorem MetadataMap.others_erase (m : MetadataMap) (key : String) :
    (m.erase key).others key = m.others key := by
  induction m with
  | nil => rfl
  | cons e rest ih =>
    obtain ⟨k, u⟩ := e
    by_cases hk : k = key
    · simp [MetadataMap.others, MetadataMap.erase, hk]
    · simp only [MetadataMap.others] at ih ⊢
      simp only [MetadataMap.erase, hk, if_false, List.filter_cons, ih]

theorem MetadataMap.others_assign (m : MetadataMap) (key : String) (w : ObjectMetadata) :
    (m.assign key w).others key = m.others key := by
  induction m with
  | nil => rfl
  | cons e rest ih =>
    obtain ⟨k, u⟩ := e
    by_cases hk : k = key
    · simp [MetadataMap.others, MetadataMap.assign, hk]
    · simp only [MetadataMap.others] at ih ⊢
      simp only [MetadataMap.assign, hk, if_false, List.filter_cons, ih]

theorem MetadataMap.others_emplace (m : MetadataMap) (key : String) (value : ObjectMetadata) :
    (m.emplace key value).1.others key = m.others key := by
  unfold MetadataMap.emplace
  cases hl : m.lookup key with
  | some v => rfl
  | none => simp [MetadataMap.others]

/-! ## Accessors: validity of the iterator -/

theorem MetadataAccessor.new_valid (stdHash : String → Nat)
    (cleanup : ObjectMetadata → Bool × ObjectMetadata) (s : MasterService) (key : String) :
    (MetadataAccessor.new stdHash cleanup s key).IteratorValid stdHash := by
  have hlt := s.getShardIndex_lt stdHash key
  cases h : (s.shard (s.getShardIndex stdHash key)).metadata.lookup key with
  | none =>
    rw [MetadataAccessor.new_absent stdHash cleanup s key h]
    exact ⟨rfl, fun k hk => Option.noConfusion hk⟩
  | some md =>
    cases hc : (cleanup md).1 with
    | true =>
      rw [MetadataAccessor.new_stale stdHash cleanup s key md h hc]
      exact ⟨rfl, fun k hk => Option.noConfusion hk⟩
    | false =>
      rw [MetadataAccessor.new_kept stdHash cleanup s key md h hc]
      refine ⟨rfl, ?_⟩
      intro k hk
      simp only [Option.some.injEq] at hk
      subst hk
      refine ⟨rfl, (cleanup md).2, ?_⟩
      simp only [MasterService.shard_setShardMetadata_same _ _ _ hlt]
      exact MetadataMap.lookup_assign_same _ key md _ h

theorem MetadataAccessor.idx_lt_of_valid (stdHash : String → Nat) (acc : MetadataAccessor)
    (hv : acc.IteratorValid stdHash) : acc.shard_idx_ < kNumShards := by
  rw [hv.1]
  exact acc.service_.getShardIndex_lt stdHash acc.key_

theorem MetadataAccessor.Create_valid (stdHash : String → Nat) (acc : MetadataAccessor)
    (hv : acc.IteratorValid stdHash) : acc.Create.IteratorValid stdHash := by
  have hlt := MetadataAccessor.idx_lt_of_valid stdHash acc hv
  refine ⟨hv.1, ?_⟩
  intro k hk
  have hit : acc.Create.it_ = some acc.key_ := by
    unfold MetadataAccessor.Create MetadataMap.emplace
    cases (acc.service_.shard acc.shard_idx_).metadata.lookup acc.key_ <;> rfl
  rw [hit] at hk
  simp only [Option.some.injEq] at hk
  subst hk
  refine ⟨rfl, (((acc.service_.shard acc.shard_idx_).metadata.lookup acc.key_).getD
    ObjectMetadata.default), ?_⟩
  show (acc.Create.service_.shard acc.shard_idx_).metadata.lookup acc.key_ = _
  simp only [MetadataAccessor.Create, MasterService.shard_setShardMetadata_same _ _ _ hlt]
  exact MetadataMap.lookup_emplace_same _ _ _

theorem MetadataAccessor.call_valid (stdHash : String → Nat) (acc next : MetadataAccessor)
    (c : AccessorCall) (hv : acc.IteratorValid stdHash) (h : acc.call c = some next) :
    next.IteratorValid stdHash := by
  cases c with
  | Create =>
    simp only [MetadataAccessor.call, Option.some.injEq] at h
    rw [← h]
    exact MetadataAccessor.Create_valid stdHash acc hv
  | Erase =>
    simp only [MetadataAccessor.call, MetadataAccessor.Erase] at h
    cases hit : acc.it_ with
    | none => rw [hit] at h; exact Option.noConfusion h
    | some k =>
      rw [hit] at h
      simp only [Option.some.injEq] at h
      rw [← h]
      exact ⟨hv.1, fun k hk => Option.noConfusion hk⟩

theorem MetadataAccessor.calls_valid (stdHash : String → Nat) (todo : List AccessorCall)
    (acc last : MetadataAccessor) (hv : acc.IteratorValid stdHash)
    (h : acc.calls todo = some last) : last.IteratorValid stdHash := by
  induction todo generalizing acc with
  | nil =>
    simp only [MetadataAccessor.calls, Option.some.injEq] at h
    rw [← h]
    exact hv
  | cons c cs ih =>
    simp only [MetadataAccessor.calls] at h
    cases hc : acc.call c with
    | none => rw [hc] at h; exact Option.noConfusion h
    | some next =>
      rw [hc] at h
      exact ih next (MetadataAccessor.call_valid stdHash acc next c hv hc) h

/-! ## Accessors: the frame -/

theorem MasterService.SameExcept.refl (s : MasterService) (idx : Nat) (key : String) :
    s.SameExcept s idx key :=
  ⟨fun _ _ => rfl, rfl, fun _ _ => rfl⟩

theorem MasterService.SameExcept.trans (s t u : MasterService) (idx : Nat) (key : String)
    (h1 : s.SameExcept t idx key) (h2 : t.SameExcept u idx key) : s.SameExcept u idx key :=
  ⟨fun j hj => (h2.1 j hj).trans (h1.1 j hj), h2.2.1.trans h1.2.1,
    fun o ho => (h2.2.2 o ho).trans (h1.2.2 o ho)⟩

theorem MasterService.SameExcept.setShardMetadata (s : MasterService) (idx : Nat)
    (key : String) (m : MetadataMap) (hlt : idx < kNumShards)
    (hothers : m.others key = (s.shard idx).metadata.others key)
    (hlookup : ∀ other, other ≠ key → m.lookup other = (s.shard idx).metadata.lookup other) :
    s.SameExcept (s.setShardMetadata idx m) idx key := by
  refine ⟨fun j hj => MasterService.shard_setShardMetadata_ne s idx j m hj, ?_, ?_⟩
  · rw [MasterService.shard_setShardMetadata_same s idx m hlt]
    exact hothers
  · intro other ho
    rw [MasterService.shard_setShardMetadata_same s idx m hlt]
    exact hlookup other ho

theorem MetadataAccessor.new_frame (stdHash : String → Nat)
    (cleanup : ObjectMetadata → Bool × ObjectMetadata) (s : MasterService) (key : String) :
    s.SameExcept (MetadataAccessor.new stdHash cleanup s key).service_
      (s.getShardIndex stdHash key) key := by
  have hlt := s.getShardIndex_lt stdHash key
  cases h : (s.shard (s.getShardIndex stdHash key)).metadata.lookup key with
  | none =>
    rw [MetadataAccessor.new_absent stdHash cleanup s key h]
    exact MasterService.SameExcept.refl s _ key
  | some md =>
    cases hc : (cleanup md).1 with
    | true =>
      rw [MetadataAccessor.new_stale stdHash cleanup s key md h hc]
      exact MasterService.SameExcept.setShardMetadata s _ key _ hlt
        (MetadataMap.others_erase _ key)
        (fun o ho => MetadataMap.lookup_erase_ne _ key o ho)
    | false =>
      rw [MetadataAccessor.new_kept stdHash cleanup s key md h hc]
      exact MasterService.SameExcept.setShardMetadata s _ key _ hlt
        (MetadataMap.others_assign _ key _)
        (fun o ho => MetadataMap.lookup_assign_ne _ key o _ ho)

theorem MetadataAccessor.call_frame (stdHash : String → Nat) (acc next : MetadataAccessor)
    (c : AccessorCall) (hv : acc.IteratorValid stdHash) (h : acc.call c = some next) :
    acc.service_.SameExcept next.service_ acc.shard_idx_ acc.key_ := by
  have hlt := MetadataAccessor.idx_lt_of_valid stdHash acc hv
  cases c with
  | Create =>
    simp only [MetadataAccessor.call, Option.some.injEq] at h
    rw [← h]
    exact MasterService.SameExcept.setShardMetadata acc.service_ _ acc.key_ _ hlt
      (MetadataMap.others_emplace _ acc.key_ _)
      (fun o ho => MetadataMap.lookup_emplace_ne _ acc.key_ o _ ho)
  | Erase =>
    simp only [MetadataAccessor.call, MetadataAccessor.Erase] at h
    cases hit : acc.it_ with
    | none => rw [hit] at h; exact Option.noConfusion h
    | some k =>
      rw [hit] at h
      simp only [Option.some.injEq] at h
      rw [← h]
      have hk : k = acc.key_ := (hv.2 k hit).1
      subst hk
      exact MasterService.SameExcept.setShardMetadata acc.service_ _ _ _ hlt
        (MetadataMap.others_erase _ _)
        (fun o ho => MetadataMap.lookup_erase_ne _ _ o ho)

theorem MetadataAccessor.calls_frame (stdHash : String → Nat) (todo : List AccessorCall)
    (acc last : MetadataAccessor) (hv : acc.IteratorValid stdHash)
    (h : acc.calls todo = some last) :
    acc.service_.SameExcept last.service_ acc.shard_idx_ acc.key_ := by
  induction todo generalizing acc with
  | nil =>
    simp only [MetadataAccessor.calls, Option.some.injEq] at h
    rw [← h]
    exact MasterService.SameExcept.refl _ _ _
  | cons c cs ih =>
    simp only [MetadataAccessor.calls] at h
    cases hc : acc.call c with
    | none => rw [hc] at h; exact Option.noConfusion h
    | some next =>
      rw [hc] at h
      have hf := MetadataAccessor.call_fields acc next c hc
      have h1 := MetadataAccessor.call_frame stdHash acc next c hv hc
      have h2 := ih next (MetadataAccessor.call_valid stdHash acc next c hv hc) h
      rw [hf.1, hf.2] at h2
      exact MasterService.SameExcept.trans _ _ _ _ _ h1 h2

theorem MetadataAccessor.Create_Get (acc : MetadataAccessor) (hlt : acc.shard_idx_ < kNumShards) :
    acc.Create.Get
      = some (((acc.service_.shard acc.shard_idx_).metadata.lookup acc.key_).getD
          ObjectMetadata.default) ∧
    acc.Create.Get = (acc.Create.service_.shard acc.shard_idx_).metadata.lookup acc.key_ := by
  have hit : acc.Create.it_ = some acc.key_ := by
    unfold MetadataAccessor.Create MetadataMap.emplace
    cases (acc.service_.shard acc.shard_idx_).metadata.lookup acc.key_ <;> rfl
  have hget : acc.Create.Get
      = (acc.Create.service_.shard acc.shard_idx_).metadata.lookup acc.key_ := by
    unfold MetadataAccessor.Get
    rw [hit]
    rfl
  refine ⟨?_, hget⟩
  rw [hget]
  simp only [MetadataAccessor.Create, MasterService.shard_setShardMetadata_same _ _ _ hlt]
  exact MetadataMap.lookup_emplace_same _ _ _

/-! ## Create, Erase and the frame of an accessor -/

/-- C11: after `Create()` on an accessor of `key`, `Exists()` is true, `key` is
present in shard `getShardIndex(key)` and `Get()` is its entry.  If `key` was
absent the entry is the default `ObjectMetadata` and the shard has exactly one
entry more; if `key` was present its metadata are what they were, the service
is unchanged and so is the number of entries. -/
theorem MetadataAccessor_Create_entry (stdHash : String → Nat)
    (cleanup : ObjectMetadata → Bool × ObjectMetadata) (s : MasterService) (key : String)
    (todo : List AccessorCall) (acc : MetadataAccessor)
    (h : (MetadataAccessor.new stdHash cleanup s key).calls todo = some acc) :
    acc.Create.Exists = true ∧
    acc.Create.key_ = key ∧
    acc.Create.shard_idx_ = s.getShardIndex stdHash key ∧
    key ∈ (acc.Create.service_.shard (s.getShardIndex stdHash key)).metadata.keys ∧
    acc.Create.Get
      = (acc.Create.service_.shard (s.getShardIndex stdHash key)).metadata.lookup key ∧
    ((acc.service_.shard (s.getShardIndex stdHash key)).metadata.lookup key = none →
      acc.Create.Get = some ObjectMetadata.default ∧
      (acc.Create.service_.shard (s.getShardIndex stdHash key)).metadata
        = (key, ObjectMetadata.default)
            :: (acc.service_.shard (s.getShardIndex stdHash key)).metadata ∧
      (acc.Create.service_.shard (s.getShardIndex stdHash key)).metadata.length
        = (acc.service_.shard (s.getShardIndex stdHash key)).metadata.length + 1) ∧
    (∀ md, (acc.service_.shard (s.getShardIndex stdHash key)).metadata.lookup key = some md →
      acc.Create.Get = some md ∧
      acc.Create.service_ = acc.service_ ∧
      (acc.Create.service_.shard (s.getShardIndex stdHash key)).metadata.length
        = (acc.service_.shard (s.getShardIndex stdHash key)).metadata.length) := by
  have hf := MetadataAccessor.calls_fields todo _ acc h
  have hk := MetadataAccessor.new_key stdHash cleanup s key
  have hkey : acc.key_ = key := hf.1.trans hk.1
  have hidx : acc.shard_idx_ = s.getShardIndex stdHash key := hf.2.trans hk.2
  have hlt : acc.shard_idx_ < kNumShards := by
    rw [hidx]; exact s.getShardIndex_lt stdHash key
  have hget := MetadataAccessor.Create_Get acc hlt
  rw [hkey, hidx] at hget
  have hpresent : key ∈ (acc.Create.service_.shard (s.getShardIndex stdHash key)).metadata.keys := by
    by_contra hnot
    have hnone := (MetadataMap.lookup_eq_none_iff _ key).2 hnot
    rw [← hget.2, hget.1] at hnone
    exact Option.noConfusion hnone
  refine ⟨MetadataAccessor.Create_Exists acc, hkey, hidx, hpresent, hget.2, ?_, ?_⟩
  · intro hnone
    have hmeta : (acc.Create.service_.shard (s.getShardIndex stdHash key)).metadata
        = (key, ObjectMetadata.default)
            :: (acc.service_.shard (s.getShardIndex stdHash key)).metadata := by
      rw [← hidx] at hnone ⊢
      rw [← hkey] at hnone ⊢
      simp only [MetadataAccessor.Create, MasterService.shard_setShardMetadata_same _ _ _ hlt,
        MetadataMap.emplace, hnone]
    refine ⟨?_, hmeta, ?_⟩
    · rw [hget.1, hnone]; rfl
    · rw [hmeta]; rfl
  · intro md hsome
    have hsame : acc.Create.service_ = acc.service_ := by
      rw [← hidx] at hsome
      rw [← hkey] at hsome
      simp only [MetadataAccessor.Create, MetadataMap.emplace, hsome]
      exact MasterService.setShardMetadata_self acc.service_ acc.shard_idx_
    refine ⟨?_, hsame, ?_⟩
    · rw [hget.1, hsome]; rfl
    · rw [hsame]

/-- C12: for an accessor of `key` with `Exists()` true, `Erase()` is defined
and removes exactly the entry of `key`: afterwards `key` is absent from its
shard, `Exists()` is false, the shard has one entry fewer, and a following
`Create()` yields the default `ObjectMetadata`, not the erased contents. -/
theorem MetadataAccessor_Erase_entry (stdHash : String → Nat)
    (cleanup : ObjectMetadata → Bool × ObjectMetadata) (s : MasterService) (key : String)
    (todo : List AccessorCall) (acc : MetadataAccessor) (hwf : ShardsWF s)
    (h : (MetadataAccessor.new stdHash cleanup s key).calls todo = some acc)
    (hex : acc.Exists = true) :
    ∃ next, acc.Erase = some next ∧
      next.Exists = false ∧
      next.key_ = key ∧
      next.shard_idx_ = s.getShardIndex stdHash key ∧
      (∃ md, (acc.service_.shard (s.getShardIndex stdHash key)).metadata.lookup key = some md ∧
        acc.Get = some md) ∧
      (next.service_.shard (s.getShardIndex stdHash key)).metadata
        = (acc.service_.shard (s.getShardIndex stdHash key)).metadata.erase key ∧
      (next.service_.shard (s.getShardIndex stdHash key)).metadata.lookup key = none ∧
      key ∉ (next.service_.shard (s.getShardIndex stdHash key)).metadata.keys ∧
      (next.service_.shard (s.getShardIndex stdHash key)).metadata.length + 1
        = (acc.service_.shard (s.getShardIndex stdHash key)).metadata.length ∧
      next.Create.Exists = true ∧
      next.Create.Get = some ObjectMetadata.default := by
  have hf := MetadataAccessor.calls_fields todo _ acc h
  have hk := MetadataAccessor.new_key stdHash cleanup s key
  have hkey : acc.key_ = key := hf.1.trans hk.1
  have hidx : acc.shard_idx_ = s.getShardIndex stdHash key := hf.2.trans hk.2
  have hlt : acc.shard_idx_ < kNumShards := by
    rw [hidx]; exact s.getShardIndex_lt stdHash key
  have hv := MetadataAccessor.calls_valid stdHash todo _ acc
    (MetadataAccessor.new_valid stdHash cleanup s key) h
  have hwfacc := MetadataAccessor.calls_WF todo _ acc
    (MetadataAccessor.new_WF stdHash cleanup s key hwf) h
  cases hit : acc.it_ with
  | none =>
    rw [MetadataAccessor.Exists, hit] at hex
    exact absurd hex (by decide)
  | some k =>
    obtain ⟨hkk, md, hmd⟩ := hv.2 k hit
    rw [hkey] at hkk
    subst hkk
    rw [hidx] at hmd
    have hmeta : ((acc.service_.setShardMetadata acc.shard_idx_
        ((acc.service_.shard acc.shard_idx_).metadata.erase k)).shard
          (s.getShardIndex stdHash k)).metadata
        = (acc.service_.shard (s.getShardIndex stdHash k)).metadata.erase k := by
      rw [← hidx, MasterService.shard_setShardMetadata_same _ _ _ hlt]
    have hnone := MetadataMap.lookup_erase_same
      (acc.service_.shard (s.getShardIndex stdHash k)).metadata k (hwfacc _)
    refine ⟨{ acc with
        service_ := acc.service_.setShardMetadata acc.shard_idx_
          ((acc.service_.shard acc.shard_idx_).metadata.erase k)
        it_ := none }, ?_, rfl, hkey, hidx, ⟨md, hmd, ?_⟩, hmeta, ?_, ?_, ?_, ?_, ?_⟩
    · simp only [MetadataAccessor.Erase, hit]
    · simp only [MetadataAccessor.Get, hit, hidx]
      exact hmd
    · rw [hmeta]; exact hnone
    · rw [hmeta]; exact (MetadataMap.lookup_eq_none_iff _ k).1 hnone
    · rw [hmeta]; exact MetadataMap.length_erase _ k md hmd
    · exact MetadataAccessor.Create_Exists _
    · have hg := (MetadataAccessor.Create_Get { acc with
        service_ := acc.service_.setShardMetadata acc.shard_idx_
          ((acc.service_.shard acc.shard_idx_).metadata.erase k)
        it_ := none } hlt).1
      rw [hg]
      show some (((((acc.service_.setShardMetadata acc.shard_idx_
        ((acc.service_.shard acc.shard_idx_).metadata.erase k)).shard
          acc.shard_idx_).metadata.lookup acc.key_).getD ObjectMetadata.default)) = _
      rw [hkey, MasterService.shard_setShardMetadata_same _ _ _ hlt, hidx, hnone]
      rfl

/-- C13: constructing an accessor of `key` (its stale-handle erase included)
and any calls of `Create()` and `Erase()` on it leave every other shard as it
was, and leave the entries under the other keys of the shard of `key` as they
were: none is added, removed or changed.  The same holds for each single call
on the accessor. -/
theorem MetadataAccessor_frame (stdHash : String → Nat)
    (cleanup : ObjectMetadata → Bool × ObjectMetadata) (s : MasterService) (key : String)
    (todo : List AccessorCall) (acc : MetadataAccessor)
    (h : (MetadataAccessor.new stdHash cleanup s key).calls todo = some acc) :
    (∀ j, j ≠ s.getShardIndex stdHash key → acc.service_.shard j = s.shard j) ∧
    (acc.service_.shard (s.getShardIndex stdHash key)).metadata.others key
      = (s.shard (s.getShardIndex stdHash key)).metadata.others key ∧
    (∀ other, other ≠ key →
      (acc.service_.shard (s.getShardIndex stdHash key)).metadata.lookup other
        = (s.shard (s.getShardIndex stdHash key)).metadata.lookup other) ∧
    (∀ (c : AccessorCall) (next : MetadataAccessor), acc.call c = some next →
      (∀ j, j ≠ s.getShardIndex stdHash key → next.service_.shard j = acc.service_.shard j) ∧
      (next.service_.shard (s.getShardIndex stdHash key)).metadata.others key
        = (acc.service_.shard (s.getShardIndex stdHash key)).metadata.others key ∧
      (∀ other, other ≠ key →
        (next.service_.shard (s.getShardIndex stdHash key)).metadata.lookup other
          = (acc.service_.shard (s.getShardIndex stdHash key)).metadata.lookup other)) := by
  have hf := MetadataAccessor.calls_fields todo _ acc h
  have hk := MetadataAccessor.new_key stdHash cleanup s key
  have hkey : acc.key_ = key := hf.1.trans hk.1
  have hidx : acc.shard_idx_ = s.getShardIndex stdHash key := hf.2.trans hk.2
  have hv0 := MetadataAccessor.new_valid stdHash cleanup s key
  have hv := MetadataAccessor.calls_valid stdHash todo _ acc hv0 h
  have h1 := MetadataAccessor.new_frame stdHash cleanup s key
  have h2 := MetadataAccessor.calls_frame stdHash todo _ acc hv0 h
  rw [hk.1, hk.2] at h2
  have h3 := MasterService.SameExcept.trans _ _ _ _ _ h1 h2
  refine ⟨h3.1, h3.2.1, h3.2.2, ?_⟩
  intro c next hc
  have h4 := MetadataAccessor.call_frame stdHash acc next c hv hc
  rw [hkey, hidx] at h4
  exact h4

/-- C11 on the sample service with two keys in shard 1: `Create` for the absent
key `z` stores the default object and makes three entries of two; `Create` for
the present key `y` exposes the stored object and changes nothing. -/
theorem MetadataAccessor_Create_entry_witness :
    (MetadataAccessor.new sampleHash cleanupNoneStale sampleServiceTwo "z").Create.Get
      = some ObjectMetadata.default ∧
    ((MetadataAccessor.new sampleHash cleanupNoneStale sampleServiceTwo "z").Create.service_.shard
      1).metadata.length = 3 ∧
    (MetadataAccessor.new sampleHash cleanupNoneStale sampleServiceTwo "y").Create.Get
      = some sampleObject ∧
    (MetadataAccessor.new sampleHash cleanupNoneStale sampleServiceTwo "y").Create.service_
      = sampleServiceTwo :=
  have hz := (MetadataAccessor_Create_entry sampleHash cleanupNoneStale sampleServiceTwo "z"
    [] _ rfl).2.2.2.2.2.1 (by decide)
  have hy := (MetadataAccessor_Create_entry sampleHash cleanupNoneStale sampleServiceTwo "y"
    [] _ rfl).2.2.2.2.2.2 sampleObject (by decide)
  ⟨hz.1, hz.2.2, hy.1, hy.2.1⟩

/-- C12 on the sample service: the accessor of `y` exists; after `Erase` it
does not, and a following `Create` exposes the default object, not the
sample object. -/
theorem MetadataAccessor_Erase_entry_witness :
    (MetadataAccessor.new sampleHash cleanupNoneStale sampleServiceTwo "y").Erase.map
        (fun next => (next.Exists, next.Create.Get))
      = some (false, some ObjectMetadata.default) := by
  obtain ⟨next, he, hex, _, _, _, _, _, _, _, _, hget⟩ :=
    MetadataAccessor_Erase_entry sampleHash cleanupNoneStale sampleServiceTwo "y" [] _
      (ShardsWF_setShardMetadata MasterService.init 1 _ ShardsWF_init
        (by unfold MetadataMap.WF; decide))
      rfl (by decide)
  rw [he, Option.map_some', hex, hget]

/-- C13 on the sample service: the accessor of `y`, constructed while every
segment is unmounted and then asked to `Create`, leaves the entry of `x` and
shard 2 as they were. -/
theorem MetadataAccessor_frame_witness :
    ((MetadataAccessor.new sampleHash cleanupAllStale sampleServiceTwo "y").Create.service_.shard
        (sampleServiceTwo.getShardIndex sampleHash "y")).metadata.lookup "x"
      = (sampleServiceTwo.shard (sampleServiceTwo.getShardIndex sampleHash "y")).metadata.lookup
          "x" ∧
    (MetadataAccessor.new sampleHash cleanupAllStale sampleServiceTwo "y").Create.service_.shard 2
      = sampleServiceTwo.shard 2 :=
  have h := MetadataAccessor_frame sampleHash cleanupAllStale sampleServiceTwo "y"
    [AccessorCall.Create] _ rfl
  ⟨h.2.2.1 "x" (by decide), h.1 2 (by decide)⟩

end mooncake
